import Mathlib

/-!
# NotionKeeper: verification of the document model and content codec

A shallow embedding of the core of the NotionKeeper converter:

* the Markdown → ProseMirror parser `_markdown_to_prosemirror`
  (src/legendkeeper_exporter.py) and the ProseMirror → Markdown serializer
  `_process_nodes` (src/legendkeeper_parser.py);
* the Notion filename helpers `_extract_name_from_filename`,
  `_extract_id_from_filename` and the property-block extractor
  `_extract_properties` (src/notion_parser.py);
* the resource tree of src/models.py (`Resource.add_child`,
  `ConversionData.get_all_resources`) and the hierarchy building pass
  `LegendKeeperParser.parse_json` (src/legendkeeper_parser.py).

Python strings are modelled as lists of characters (`PyStr`); every Python
string operation used by the code (`strip`, `startswith`, `lstrip`, slicing,
`split("\n")`, `join`) is given its direct character-list counterpart, so
proofs can proceed by ordinary list induction.  Mutable Python objects that
are subject to aliasing (resources linked by `add_child` during
`parse_json`) are modelled by a heap: an association list from object keys
to resource states, with child lists holding keys (references) rather than
values.
-/

set_option maxHeartbeats 1000000

namespace NotionKeeper

/-- A Python string, modelled as its list of characters. -/
abbrev PyStr := List Char

/-- Characters of a Lean string literal, used to write `PyStr` constants. -/
def str (s : String) : PyStr := s.data

/-- The whitespace test used by Python's `str.strip()` / `\s` (ASCII range). -/
def isPySpace (c : Char) : Bool :=
  c = ' ' || c = '\t' || c = '\n' || c = '\r' || c = '\x0b' || c = '\x0c'

/-- Python `str.lstrip()`: drop leading whitespace. -/
def lstrip (s : PyStr) : PyStr := s.dropWhile isPySpace

/-- Python `str.rstrip()`: drop trailing whitespace. -/
def rstrip (s : PyStr) : PyStr := (s.reverse.dropWhile isPySpace).reverse

/-- Python `str.strip()`: drop leading and trailing whitespace. -/
def pstrip (s : PyStr) : PyStr := rstrip (lstrip s)

/-- Python `content.split("\n")`: split at every newline, keeping empty
pieces; the result is always nonempty. -/
def splitLines : PyStr → List PyStr
  | [] => [[]]
  | c :: cs =>
    if c = '\n' then [] :: splitLines cs
    else
      match splitLines cs with
      | l :: ls => (c :: l) :: ls
      | [] => [[c]]

/-- Python `"\n".join(lines)`. -/
def joinLines (ls : List PyStr) : PyStr := List.intercalate [ '\n' ] ls

/-- Python `" ".join(lines)`. -/
def joinSpace (ls : List PyStr) : PyStr := List.intercalate [ ' ' ] ls

/-! ## ProseMirror node model

The structured document nodes handled by the codec.  A node of a kind the
serializer does not recognize is `other`, carrying its `content` list when
the underlying dict has one (`node.get("content", [])` yields `[]` when the
key is absent). -/

/-- A text mark (`node["marks"]`): bold, italic, inline code, link with an
href, or a mark kind the serializer does not know (left unapplied). -/
inductive Mark where
  | strong
  | em
  | code
  | link (href : PyStr)
  | otherMark
deriving DecidableEq

/-- A ProseMirror node, as consumed by `_process_nodes` and produced by
`_markdown_to_prosemirror`. -/
inductive Node where
  | text (t : PyStr) (marks : List Mark)
  | paragraph (content : List Node)
  | heading (level : Nat) (content : List Node)
  | bulletList (content : List Node)
  | orderedList (content : List Node)
  | listItem (content : List Node)
  | codeBlock (content : List Node)
  | blockquote (content : List Node)
  | rule
  | mention (t : PyStr)
  | image (src alt : PyStr)
  | other (content : Option (List Node))

/-- `node.get("content", [])`: the child list of a node, `[]` when the node
kind carries none (or an unrecognized node's dict has no `content` key). -/
def Node.getContent : Node → List Node
  | .paragraph c => c
  | .heading _ c => c
  | .bulletList c => c
  | .orderedList c => c
  | .listItem c => c
  | .codeBlock c => c
  | .blockquote c => c
  | .other (some c) => c
  | _ => []

theorem Node.sizeOf_getContent_le (n : Node) : sizeOf n.getContent ≤ sizeOf n := by
  cases n with
  | other oc => cases oc <;> simp [Node.getContent] <;> omega
  | _ => simp [Node.getContent] <;> omega

/-- The mark application loop of the `text` case of `_process_nodes`:
`for mark in marks: text = ...`. -/
def applyMarks (marks : List Mark) (t : PyStr) : PyStr :=
  marks.foldl
    (fun text m =>
      match m with
      | .strong => str "**" ++ text ++ str "**"
      | .em => str "*" ++ text ++ str "*"
      | .code => str "`" ++ text ++ str "`"
      | .link href => str "[" ++ text ++ str "](" ++ href ++ str ")"
      | .otherMark => text)
    t

mutual

/-- `LegendKeeperParser._process_nodes`: serialize a node list to Markdown
text.  Faithful to src/legendkeeper_parser.py lines 177-258. -/
def process_nodes : List Node → PyStr
  | [] => []
  | n :: ns => process_one n ++ process_nodes ns
termination_by ns => sizeOf ns
decreasing_by all_goals
  first
    | exact lt_of_le_of_lt (Node.sizeOf_getContent_le _) (by simp <;> omega)
    | (simp <;> omega)

/-- The body of the `for node in nodes` loop of `_process_nodes`: the text
contributed by a single node. -/
def process_one : Node → PyStr
  | .text t marks => applyMarks marks t
  | .paragraph c => process_nodes c ++ str "\n\n"
  | .heading level c => List.replicate level '#' ++ ' ' :: process_nodes c ++ str "\n"
  | .bulletList items => process_items (str "-") items
  | .orderedList items => process_items (str "1.") items
  | .listItem c => process_nodes c
  | .codeBlock c => str "```\n" ++ process_nodes c ++ str "\n```\n"
  | .blockquote c => str "> " ++ process_nodes c ++ str "\n"
  | .rule => str "---\n"
  | .mention t => str "[[" ++ t ++ str "]]"
  | .image src alt => str "![" ++ alt ++ str "](" ++ src ++ str ")" ++ str "\n"
  | .other oc =>
    match oc with
    | some c => if c.isEmpty then [] else process_nodes c
    | none => []
termination_by n => sizeOf n
decreasing_by all_goals
  first
    | exact lt_of_le_of_lt (Node.sizeOf_getContent_le _) (by simp <;> omega)
    | (simp <;> omega)

/-- The `for item in list_items` loop of the `bulletList`/`orderedList`
case: each item contributes `marker ++ " " ++ serialized content ++ "\n"`. -/
def process_items (marker : PyStr) : List Node → PyStr
  | [] => []
  | item :: rest =>
    (marker ++ ' ' :: process_nodes item.getContent ++ str "\n") ++ process_items marker rest
termination_by items => sizeOf items
decreasing_by all_goals
  first
    | exact lt_of_le_of_lt (Node.sizeOf_getContent_le _) (by simp <;> omega)
    | (simp <;> omega)

end

/-! ## Markdown → ProseMirror (`_markdown_to_prosemirror`) -/

/-- `LegendKeeperExporter._is_special_line`: a line that starts a Markdown
block element (checked on the stripped line). -/
def is_special_line (line : PyStr) : Bool :=
  let s := pstrip line
  List.isPrefixOf (str "#") s
    || List.isPrefixOf (str "-") s || List.isPrefixOf (str "*") s
    || List.isPrefixOf (str "+") s
    || List.isPrefixOf (str ">") s
    || List.isPrefixOf (str "![") s
    || s = str "---" || s = str "***" || s = str "___"

/-- The paragraph-accumulation loop of `_markdown_to_prosemirror`: take the
immediately following lines that are nonblank and not special; return them
together with the remaining lines. -/
def takePara : List PyStr → List PyStr × List PyStr
  | [] => ([], [])
  | l :: ls =>
    if pstrip l ≠ [] ∧ ¬ is_special_line l then
      let r := takePara ls
      (l :: r.1, r.2)
    else ([], l :: ls)

theorem takePara_snd_length : ∀ ls : List PyStr, (takePara ls).2.length ≤ ls.length := by
  intro ls
  induction ls with
  | nil => simp [takePara]
  | cons l ls ih =>
    simp only [takePara]
    split
    · simpa using Nat.le_succ_of_le ih
    · simp

/-- Split a string at the first occurrence of `sep` (lazy matching of a
`(.*?)sep` group), returning the part before it and the part after it. -/
def splitFirst (sep : PyStr) : PyStr → Option (PyStr × PyStr)
  | [] => none
  | c :: cs =>
    if sep.isPrefixOf (c :: cs) then some ([], (c :: cs).drop sep.length)
    else
      match splitFirst sep cs with
      | some (a, b) => some (c :: a, b)
      | none => none

/-- The image regex `!\[(.*?)\]\((.*?)\)` of the `![`-branch, specialised:
after `![`, the (lazy) alt text runs to the first `](`, and the (lazy) src
to the first `)`.  Returns `(alt, src)` on a match. -/
def matchImage (s : PyStr) : Option (PyStr × PyStr) :=
  if List.isPrefixOf (str "![") s then
    match splitFirst (str "](") (s.drop 2) with
    | some (alt, rest) =>
      match splitFirst (str ")") rest with
      | some (src, _) => some (alt, src)
      | none => none
    | none => none
  else none

/-- The `while i < len(lines)` loop of `_markdown_to_prosemirror`, acting on
the list of lines.  Faithful to src/legendkeeper_exporter.py lines 208-308:
branch order and all string operations follow the source. -/
def parseBlocks : List PyStr → List Node
  | [] => []
  | line :: rest =>
    if pstrip line = [] then parseBlocks rest
    else if List.isPrefixOf (str "#") line then
      let level := line.length - (line.dropWhile (· = '#')).length
      let text := pstrip (line.dropWhile (· = '#'))
      .heading (min level 6) [.text text []] :: parseBlocks rest
    else if pstrip line = str "---" ∨ pstrip line = str "***" ∨ pstrip line = str "___" then
      .rule :: parseBlocks rest
    else if List.isPrefixOf (str "-") (pstrip line) ∨ List.isPrefixOf (str "*") (pstrip line)
        ∨ List.isPrefixOf (str "+") (pstrip line) then
      let text := pstrip ((pstrip line).drop 1)
      .bulletList [.listItem [.paragraph [.text text []]]] :: parseBlocks rest
    else if List.isPrefixOf (str ">") (pstrip line) then
      let text := pstrip ((pstrip line).drop 1)
      .blockquote [.paragraph [.text text []]] :: parseBlocks rest
    else if List.isPrefixOf (str "![") (pstrip line) then
      match matchImage (pstrip line) with
      | some (alt, src) =>
        .paragraph [.text (str "![" ++ alt ++ str "](" ++ src ++ str ")") []] :: parseBlocks rest
      | none => parseBlocks rest
    else
      let r := takePara rest
      .paragraph [.text (joinSpace (line :: r.1)) []] :: parseBlocks r.2
termination_by ls => ls.length
decreasing_by
  all_goals simp only [List.length_cons]
  all_goals first
    | omega
    | exact Nat.lt_succ_of_le (takePara_snd_length _)

/-- `LegendKeeperExporter._markdown_to_prosemirror`: split the content at
newlines and run the block loop. -/
def markdown_to_prosemirror (content : PyStr) : List Node :=
  parseBlocks (splitLines content)

/-! ## Ordered dictionaries

Python `dict`s preserve insertion order; assignment replaces the value of
an existing key in place and appends a fresh key. -/

/-- Python ordered-dict assignment `d[k] = v`. -/
def dictInsert {α β : Type} [DecidableEq α] (k : α) (v : β) :
    List (α × β) → List (α × β)
  | [] => [(k, v)]
  | (k0, v0) :: rest => if k0 = k then (k, v) :: rest else (k0, v0) :: dictInsert k v rest

/-- Python dict indexing `d[k]` / membership `k in d` (first matching key;
keys are unique in all modelled dicts). -/
def lookupD {α β : Type} [DecidableEq α] (k : α) : List (α × β) → Option β
  | [] => none
  | (k0, v) :: rest => if k0 = k then some v else lookupD k rest

/-! ## Notion filename helpers (`NotionParser`) -/

/-- The character class `[a-f0-9]` of the Notion ID token. -/
def isHexLower (c : Char) : Bool := ('a' ≤ c && c ≤ 'f') || ('0' ≤ c && c ≤ '9')

/-- Does a string match the regex tail `\s+[a-f0-9]{32}$`?  Whitespace and
hex digits are disjoint, so the backtracking regex is deterministic: a
nonempty whitespace run, then exactly 32 hex digits, then the end of the
string — Python's `$` also matches just before a single trailing
newline. -/
def hexTailMatch (r : PyStr) : Bool :=
  let rest := r.dropWhile isPySpace
  r.takeWhile isPySpace ≠ [] && 32 ≤ rest.length && (rest.take 32).all isHexLower
    && (rest.drop 32 = [] || rest.drop 32 = [ '\n' ])

/-- The lazy group `(.+?)` of `re.match(r"^(.+?)\s+[a-f0-9]{32}$", f)`: try
ever longer nonempty prefixes (`.` does not cross a newline) until the
remainder matches the tail; return group 1 of the first success. -/
def nameGroupScan (acc : PyStr) : PyStr → Option PyStr
  | [] => none
  | c :: cs =>
    if c = '\n' then none
    else if hexTailMatch cs then some (acc ++ [c])
    else nameGroupScan (acc ++ [c]) cs

/-- `NotionParser._extract_name_from_filename`: strip a trailing
`whitespace + 32-hex-token` suffix, returning the stripped group 1;
otherwise return the filename unchanged. -/
def extract_name_from_filename (filename : PyStr) : PyStr :=
  match nameGroupScan [] filename with
  | some g1 => pstrip g1
  | none => filename

/-- One position of `re.search(r"[a-f0-9]{32}$", f)`: 32 hex digits here,
then the end of the string (or a single trailing newline). -/
def hexHereMatch (r : PyStr) : Bool :=
  32 ≤ r.length && (r.take 32).all isHexLower && (r.drop 32 = [] || r.drop 32 = [ '\n' ])

/-- The left-to-right scan of `re.search`: the token of the first (leftmost)
position whose suffix matches `[a-f0-9]{32}$`. -/
def idSearchScan : PyStr → Option PyStr
  | [] => none
  | c :: cs => if hexHereMatch (c :: cs) then some ((c :: cs).take 32) else idSearchScan cs

/-- Python `filename.lower().replace(" ", "_")` (ASCII lowercasing), the
fallback ID of `_extract_id_from_filename`. -/
def synthesizeId (f : PyStr) : PyStr :=
  (f.map Char.toLower).map (fun c => if c = ' ' then '_' else c)

/-- `NotionParser._extract_id_from_filename`: the trailing 32-hex token if
one is found by `re.search(r"[a-f0-9]{32}$", ...)` (no whitespace before it
is required), else an ID synthesized from the name. -/
def extract_id_from_filename (filename : PyStr) : PyStr :=
  match idSearchScan filename with
  | some tok => tok
  | none => synthesizeId filename

/-! ## Notion property extraction (`NotionParser._extract_properties`) -/

/-- The character class `[a-zA-Z\s]` of a property key after its first
letter. -/
def isKeyChar (c : Char) : Bool := c.isAlpha || isPySpace c

/-- The property-line regex `^([A-Z][a-zA-Z\s]+):\s+(.+)$`, applied to an
already stripped, newline-free line (its only callers pass
`lines[i].strip()` of a line split at newlines).  The class of group 1 and
`:` are disjoint, so greedy matching is deterministic: group 1 is the
maximal run of letters/whitespace (two or more characters, the first
uppercase), then `:`, then at least one whitespace, and group 2 the
nonempty remainder (when everything after the colon is whitespace, `\s+`
backtracks and leaves its last character to `(.+)`).  Returns the stripped
`(key, value)` pair of a match. -/
def matchProp (line : PyStr) : Option (PyStr × PyStr) :=
  match line with
  | [] => none
  | c :: rest =>
    if c.isUpper then
      let g1tail := rest.takeWhile isKeyChar
      if g1tail = [] then none
      else
        match rest.drop g1tail.length with
        | [] => none
        | c2 :: rem =>
          if c2 = ':' then
            let sp := rem.takeWhile isPySpace
            let g2 := rem.drop sp.length
            if sp = [] then none
            else if g2 ≠ [] then some (pstrip (c :: g1tail), pstrip g2)
            else if 2 ≤ sp.length then some (pstrip (c :: g1tail), [])
            else none
          else none
    else none

/-- The `for i in range(content_start_idx, min(content_start_idx + 20, len(lines)))`
scanning loop of `_extract_properties`.  `remaining` is the `lines[i:]`
suffix, `i` the current index, `fuel` the window budget (20 at the call),
`props` the accumulated property dict and `endIdx` the running
`property_end_idx`.  Returns the final dict and `property_end_idx`. -/
def propScan (startIdx : Nat) :
    List PyStr → Nat → Nat → List (PyStr × PyStr) → Nat → List (PyStr × PyStr) × Nat
  | _, _, 0, props, endIdx => (props, endIdx)
  | [], _, _ + 1, props, endIdx => (props, endIdx)
  | l :: rem, i, fuel + 1, props, endIdx =>
    let line := pstrip l
    if line = [] then
      if startIdx < endIdx then (props, i + 1)
      else propScan startIdx rem (i + 1) fuel props endIdx
    else
      match matchProp line with
      | some (k, v) => propScan startIdx rem (i + 1) fuel (dictInsert k v props) (i + 1)
      | none =>
        if startIdx < endIdx then (props, endIdx)
        else propScan startIdx rem (i + 1) fuel props endIdx

/-- `NotionParser._extract_properties` acting on the two fields it touches:
from the page `content` and the current `properties` dict, compute the new
`(content, properties)` pair (title skip, blank skip, 20-line window scan,
then content from `property_end_idx` on, stripped). -/
def extract_properties (content : PyStr) (properties : List (PyStr × PyStr)) :
    PyStr × List (PyStr × PyStr) :=
  let lines := splitLines content
  let start0 := if lines ≠ [] ∧ List.isPrefixOf (str "# ") (pstrip (lines.headD [])) then 1 else 0
  let start :=
    if start0 < lines.length ∧ pstrip ((lines.drop start0).headD []) = [] then start0 + 1
    else start0
  let r := propScan start (lines.drop start) start 20 properties start
  (pstrip (joinLines (lines.drop r.2)), r.1)

/-- The line a `Key: value` property is written as in a Notion page body
(the shape captured by the `_extract_properties` regex, with a single
space after the colon). -/
def propLine (kv : PyStr × PyStr) : PyStr := kv.1 ++ ':' :: ' ' :: kv.2

/-! ## The resource tree (src/models.py), value view

`Resource` as a pure value: `children` holds the child resources
themselves.  This is the view of the tree walked by
`ConversionData.get_all_resources`.  (The `raw_data` dict of the Python
class, kept only for debugging, is not modelled.) -/

/-- The fields of a `Resource` (src/models.py lines 10-44), parametrised by
the type of the child list so the value view and Lean's positivity checker
agree. -/
structure ResourceData (R : Type) where
  id : PyStr := []
  name : PyStr := []
  parent_id : Option PyStr := none
  content : PyStr := []
  properties : List (PyStr × PyStr) := []
  tags : List PyStr := []
  aliases : List PyStr := []
  icon_glyph : Option PyStr := none
  icon_color : Option PyStr := none
  icon_shape : Option PyStr := none
  banner_url : Option PyStr := none
  banner_y_position : ℚ := 50
  is_hidden : Bool := false
  is_locked : Bool := false
  children : List R := []
  images : List PyStr := []

/-- A resource tree node. -/
inductive Resource where
  | mk (data : ResourceData Resource)

/-- The fields of a resource. -/
def Resource.data : Resource → ResourceData Resource
  | ⟨d⟩ => d

/-- The child list of a resource. -/
def Resource.children (r : Resource) : List Resource := r.data.children

theorem Resource.sizeOf_children_lt (r : Resource) : sizeOf r.children < sizeOf r := by
  cases r with
  | mk d => cases d; simp [Resource.children, Resource.data]; omega

/-- A row of a Notion database CSV (src/models.py lines 58-64). -/
structure DatabaseRow where
  name : PyStr
  properties : List (PyStr × PyStr) := []
  raw_data : List (PyStr × PyStr) := []

/-- `ConversionData` (src/models.py lines 67-126): root resources, named
databases, metadata. -/
structure ConversionData where
  resources : List Resource := []
  databases : List (PyStr × List DatabaseRow) := []
  metadata : List (PyStr × PyStr) := []

/-- The recursive collector of `ConversionData.get_all_resources`:
append each resource, then extend with its collected children. -/
def collect : List Resource → List Resource
  | [] => []
  | r :: rs => r :: (collect r.children ++ collect rs)
termination_by rs => sizeOf rs
decreasing_by all_goals
  first
    | exact lt_of_le_of_lt (Nat.le_of_lt (Resource.sizeOf_children_lt _)) (by simp <;> omega)
    | (simp <;> omega)

/-- `ConversionData.get_all_resources`: all resources as a flat list. -/
def ConversionData.get_all_resources (d : ConversionData) : List Resource :=
  collect d.resources

mutual

/-- The number of resources in a single tree (the node itself plus all
nested descendants). -/
def treeSize : Resource → Nat
  | r => 1 + forestSize r.children
termination_by r => sizeOf r
decreasing_by exact Resource.sizeOf_children_lt _

/-- The number of resources in a forest, all nesting levels included. -/
def forestSize : List Resource → Nat
  | [] => 0
  | r :: rs => treeSize r + forestSize rs
termination_by rs => sizeOf rs
decreasing_by all_goals simp <;> omega

end

/-! ## The resource heap (mutating operations)

`Resource.add_child` mutates two objects that other objects may alias
(`self.children.append(child); child.parent_id = self.id`), and
`parse_json` relies on that aliasing: a resource keeps receiving children
after it has been appended to its own parent's child list.  These
operations are therefore modelled on a heap: an association list from
object keys to resource states, where `children` holds keys.  In
`parse_json` every object in play is a value of the id-keyed dict built by
the first pass, so keys coincide with resource ids there. -/

/-- The state of a `Resource` object in the heap model; `children` holds
references (store keys). -/
structure ResourceS where
  id : PyStr := []
  name : PyStr := []
  parent_id : Option PyStr := none
  content : PyStr := []
  properties : List (PyStr × PyStr) := []
  tags : List PyStr := []
  aliases : List PyStr := []
  icon_glyph : Option PyStr := none
  icon_color : Option PyStr := none
  icon_shape : Option PyStr := none
  banner_url : Option PyStr := none
  banner_y_position : ℚ := 50
  is_hidden : Bool := false
  is_locked : Bool := false
  children : List PyStr := []
  images : List PyStr := []
deriving DecidableEq

/-- A heap of resource objects. -/
abbrev Store := List (PyStr × ResourceS)

/-- `Resource.add_child` (src/models.py lines 46-49) on the heap:
`self.children.append(child); child.parent_id = self.id`, where `pk` and
`ck` are the references held as `self` and `child`.  (The lookups cannot
fail in the modelled scenarios — Python callers hold live references.) -/
def add_child (s : Store) (pk ck : PyStr) : Store :=
  match lookupD pk s with
  | none => s
  | some p =>
    let s1 := dictInsert pk { p with children := p.children ++ [ck] } s
    match lookupD ck s1 with
    | none => s1
    | some c => dictInsert ck { c with parent_id := some p.id } s1

/-! ## LegendKeeper JSON parsing (`LegendKeeperParser.parse_json`) -/

/-- A resource record of a LegendKeeper JSON export: the fields read by
`_parse_resource`, with the defaults of the corresponding `.get` calls.  A
document is its name together with the node list of its ProseMirror
`content`. -/
structure LKRecord where
  id : PyStr := []
  name : PyStr := []
  parentId : Option PyStr := none
  iconGlyph : Option PyStr := none
  iconColor : Option PyStr := none
  iconShape : Option PyStr := none
  isHidden : Bool := false
  isLocked : Bool := false
  bannerEnabled : Bool := false
  bannerUrl : PyStr := []
  bannerY : ℚ := 50
  tags : List PyStr := []
  aliases : List PyStr := []
  properties : List (PyStr × PyStr) := []
  documents : List (PyStr × List Node) := []

/-- `_extract_text_from_prosemirror`: serialize a document's top-level node
list. -/
def extract_text_from_prosemirror (content : List Node) : PyStr := process_nodes content

/-- `_extract_content_from_documents`: a heading for each document not
named `Main`, then its serialized text when nonempty; parts joined by blank
lines. -/
def extract_content_from_documents (documents : List (PyStr × List Node)) : PyStr :=
  let parts := documents.foldl
    (fun acc doc =>
      let acc1 :=
        if doc.1 ≠ [] ∧ doc.1 ≠ str "Main" then acc ++ [str "# " ++ doc.1 ++ str "\n"]
        else acc
      let text := extract_text_from_prosemirror doc.2
      if text ≠ [] then acc1 ++ [text] else acc1)
    []
  List.intercalate (str "\n\n") parts

/-- `LegendKeeperParser._parse_resource`: build a resource object from a
record (properties with empty names are skipped, banner fields are set only
when the banner is enabled, content is extracted from the documents). -/
def parse_resource (r : LKRecord) : ResourceS :=
  { id := r.id
    name := r.name
    parent_id := r.parentId
    icon_glyph := r.iconGlyph
    icon_color := r.iconColor
    icon_shape := r.iconShape
    is_hidden := r.isHidden
    is_locked := r.isLocked
    banner_url := if r.bannerEnabled then some r.bannerUrl else none
    banner_y_position := if r.bannerEnabled then r.bannerY else 50
    tags := r.tags
    aliases := r.aliases
    properties :=
      (r.properties.filter (fun p => p.1 ≠ [])).foldl (fun d p => dictInsert p.1 p.2 d) []
    content := extract_content_from_documents r.documents
    children := []
    images := [] }

/-- First pass of `parse_json`: `resources_by_id[resource.id] = resource`
over the records in order. -/
def buildById (records : List LKRecord) : Store :=
  records.foldl (fun d r => let res := parse_resource r; dictInsert res.id res d) []

/-- The test `resource.parent_id and resource.parent_id in resources_by_id`
(`None` and the empty string are both falsy). -/
def resolvableIn (s : Store) : Option PyStr → Bool
  | none => false
  | some pid => pid ≠ [] && (lookupD pid s).isSome

/-- Second pass of `parse_json`: `for resource in resources_by_id.values()`
in insertion order — attach to the parent when the reference resolves,
otherwise record a root. -/
def secondPass : List PyStr → Store → List PyStr → Store × List PyStr
  | [], s, roots => (s, roots)
  | k :: ks, s, roots =>
    match lookupD k s with
    | none => secondPass ks s roots
    | some res =>
      match res.parent_id with
      | some pid =>
        if pid ≠ [] ∧ (lookupD pid s).isSome then secondPass ks (add_child s pid k) roots
        else secondPass ks s (roots ++ [k])
      | none => secondPass ks s (roots ++ [k])

/-- `LegendKeeperParser.parse_json`, hierarchy part: build the id-keyed
dict, then the hierarchy; returns the final heap together with the keys of
the root resources (`data.resources`). -/
def parse_json (records : List LKRecord) : Store × List PyStr :=
  let s := buildById records
  secondPass (s.map Prod.fst) s []

/-! ## Derived notions used by the specification -/

/-- Number of occurrences of a key across all children lists of a heap:
`k` is owned at most once iff this is at most 1. -/
def totalOcc (s : Store) (k : PyStr) : Nat :=
  (s.map (fun e => e.2.children.count k)).sum

/-- Every parent-child edge of the heap is consistent: each child reference
in a children list resolves, and the child's `parent_id` equals its
parent's `id`. -/
def ParentLinked (s : Store) : Prop :=
  ∀ pk p, lookupD pk s = some p → ∀ ck ∈ p.children,
    ∃ c, lookupD ck s = some c ∧ c.parent_id = some p.id

/-! ## Concrete objects used in witnesses and counterexamples -/

/-- A parent object for the attach scenarios. -/
def c3Parent : ResourceS := { id := str "p", name := str "P" }

/-- A child object for the attach scenarios. -/
def c3Child : ResourceS := { id := str "c", name := str "C" }

/-- A fresh two-object heap for the attach scenarios. -/
def c3Store : Store := [(str "p", c3Parent), (str "c", c3Child)]

/-- A second parent object for the reattachment scenario. -/
def c5Parent2 : ResourceS := { id := str "q", name := str "Q" }

/-- A three-object heap for the reattachment scenario. -/
def c5Store : Store := [(str "p", c3Parent), (str "q", c5Parent2), (str "c", c3Child)]

/-- A LegendKeeper record that names itself as its parent. -/
def c4Record : LKRecord := { id := str "a", parentId := some (str "a") }

/-- A leaf resource for the flatten scenario. -/
def c8Leaf : Resource := .mk { id := str "b", name := str "B" }

/-- A root resource with one child, for the flatten scenario. -/
def c8Root1 : Resource := .mk { id := str "a", name := str "A", children := [c8Leaf] }

/-- A second, childless root for the flatten scenario. -/
def c8Root2 : Resource := .mk { id := str "c", name := str "C" }

/-- A two-root forest for the flatten scenario. -/
def c8Data : ConversionData := { resources := [c8Root1, c8Root2] }

/-- A filename whose trailing 32-hex token is not preceded by whitespace. -/
def c6Input : PyStr := 'x' :: List.replicate 32 'a'

/-! ## Dictionary and heap lemmas -/

section DictLemmas

variable {α β : Type} [DecidableEq α]

theorem lookupD_dictInsert_self (k : α) (v : β) (d : List (α × β)) :
    lookupD k (dictInsert k v d) = some v := by
  induction d with
  | nil => simp [dictInsert, lookupD]
  | cons e rest ih =>
    obtain ⟨k0, v0⟩ := e
    by_cases h : k0 = k <;> simp [dictInsert, lookupD, h, ih]

theorem lookupD_dictInsert_ne (k k' : α) (v : β) (d : List (α × β)) (h : k' ≠ k) :
    lookupD k' (dictInsert k v d) = lookupD k' d := by
  have h' : ¬ k = k' := fun e => h e.symm
  induction d with
  | nil => simp [dictInsert, lookupD, h']
  | cons e rest ih =>
    obtain ⟨k0, v0⟩ := e
    by_cases h0 : k0 = k
    · subst h0
      simp [dictInsert, lookupD, h']
    · simp only [dictInsert, h0, if_false, lookupD]
      by_cases h1 : k0 = k' <;> simp [h1, ih]

theorem keys_dictInsert_of_mem (k : α) (v : β) (d : List (α × β))
    (h : (lookupD k d).isSome) :
    (dictInsert k v d).map Prod.fst = d.map Prod.fst := by
  induction d with
  | nil => simp [lookupD] at h
  | cons e rest ih =>
    obtain ⟨k0, v0⟩ := e
    by_cases h0 : k0 = k
    · subst h0; simp [dictInsert]
    · simp only [lookupD, h0, if_false] at h
      simp [dictInsert, h0, ih h]

theorem keys_dictInsert_of_not_mem (k : α) (v : β) (d : List (α × β))
    (h : lookupD k d = none) :
    (dictInsert k v d).map Prod.fst = d.map Prod.fst ++ [k] := by
  induction d with
  | nil => simp [dictInsert]
  | cons e rest ih =>
    obtain ⟨k0, v0⟩ := e
    by_cases h0 : k0 = k
    · simp [lookupD, h0] at h
    · simp only [lookupD, h0, if_false] at h
      simp [dictInsert, h0, ih h]

theorem lookupD_isSome_iff_mem_keys (k : α) (d : List (α × β)) :
    (lookupD k d).isSome ↔ k ∈ d.map Prod.fst := by
  induction d with
  | nil => simp [lookupD]
  | cons e rest ih =>
    obtain ⟨k0, v0⟩ := e
    by_cases h0 : k0 = k <;> simp [lookupD, h0, ih, eq_comm (a := k) (b := k0)]

theorem lookupD_eq_none_iff_not_mem (k : α) (d : List (α × β)) :
    lookupD k d = none ↔ k ∉ d.map Prod.fst := by
  rw [← lookupD_isSome_iff_mem_keys]
  cases lookupD k d <;> simp

theorem lookupD_mem (k : α) (v : β) (d : List (α × β)) (h : lookupD k d = some v) :
    (k, v) ∈ d := by
  induction d with
  | nil => simp [lookupD] at h
  | cons e rest ih =>
    obtain ⟨k0, v0⟩ := e
    by_cases h0 : k0 = k
    · subst h0
      simp [lookupD] at h
      simp [h]
    · simp only [lookupD, h0, if_false] at h
      simp [ih h]

end DictLemmas

/-! ### `add_child` on the heap -/

theorem keys_add_child (s : Store) (pk ck : PyStr) :
    (add_child s pk ck).map Prod.fst = s.map Prod.fst := by
  cases hp : lookupD pk s with
  | none => simp [add_child, hp]
  | some p =>
    have h1 : (dictInsert pk { p with children := p.children ++ [ck] } s).map Prod.fst
        = s.map Prod.fst :=
      keys_dictInsert_of_mem _ _ _ (by simp [hp])
    simp only [add_child, hp]
    cases hc : lookupD ck (dictInsert pk { p with children := p.children ++ [ck] } s) with
    | none => exact h1
    | some c =>
      rw [keys_dictInsert_of_mem _ _ _ (by simp [hc])]
      exact h1

theorem lookupD_add_child_other (s : Store) (pk ck k : PyStr)
    (h1 : k ≠ pk) (h2 : k ≠ ck) :
    lookupD k (add_child s pk ck) = lookupD k s := by
  cases hp : lookupD pk s with
  | none => simp [add_child, hp]
  | some p =>
    simp only [add_child, hp]
    cases hc : lookupD ck (dictInsert pk { p with children := p.children ++ [ck] } s) with
    | none => simp [lookupD_dictInsert_ne _ _ _ _ h1]
    | some c => simp [lookupD_dictInsert_ne _ _ _ _ h1, lookupD_dictInsert_ne _ _ _ _ h2]

theorem lookupD_add_child_parent (s : Store) (pk ck : PyStr) (p : ResourceS)
    (hne : pk ≠ ck) (hp : lookupD pk s = some p) :
    lookupD pk (add_child s pk ck) = some { p with children := p.children ++ [ck] } := by
  simp only [add_child, hp]
  cases hc : lookupD ck (dictInsert pk { p with children := p.children ++ [ck] } s) with
  | none => simp [lookupD_dictInsert_self]
  | some c =>
    simp [lookupD_dictInsert_ne _ _ _ _ hne, lookupD_dictInsert_self]

theorem lookupD_add_child_child (s : Store) (pk ck : PyStr) (p c : ResourceS)
    (hne : pk ≠ ck) (hp : lookupD pk s = some p) (hc : lookupD ck s = some c) :
    lookupD ck (add_child s pk ck) = some { c with parent_id := some p.id } := by
  have hc1 : lookupD ck (dictInsert pk { p with children := p.children ++ [ck] } s) = some c := by
    rw [lookupD_dictInsert_ne _ _ _ _ (fun h => hne h.symm)]
    exact hc
  simp only [add_child, hp, hc1]
  simp [lookupD_dictInsert_self]

theorem lookupD_add_child_self (s : Store) (pk : PyStr) (p : ResourceS)
    (hp : lookupD pk s = some p) :
    lookupD pk (add_child s pk pk) =
      some { p with children := p.children ++ [pk], parent_id := some p.id } := by
  simp only [add_child, hp, lookupD_dictInsert_self]

/-! ## Claim C3: the effect of a single `attach` -/

/-- C3, counterexample: `attach` appends unconditionally, so attaching the
same child to the same parent twice leaves it in `parent.children` twice —
"occurs exactly once" fails as a universal statement.  (In Python the same
double `add_child` call sequence duplicates the very same object in
`self.children`.) -/
theorem c3_attach_twice_counterexample :
    lookupD (str "p") (add_child (add_child c3Store (str "p") (str "c")) (str "p") (str "c"))
      = some { c3Parent with children := [str "c", str "c"] } ∧
    ([str "c", str "c"] : List PyStr).count (str "c") = 2 := by
  constructor
  · rfl
  · rfl

/-- C3, amended: after `attach(parent, child)` the child's `parent_id`
equals the parent's `id` unconditionally, and the child occurs exactly once
in `parent.children` provided it was not already present there. -/
theorem c3_attach_spec (s : Store) (pk ck : PyStr) (p c : ResourceS)
    (hp : lookupD pk s = some p) (hc : lookupD ck s = some c) (hne : pk ≠ ck)
    (hnew : ck ∉ p.children) :
    lookupD ck (add_child s pk ck) = some { c with parent_id := some p.id } ∧
    lookupD pk (add_child s pk ck) = some { p with children := p.children ++ [ck] } ∧
    (p.children ++ [ck]).count ck = 1 := by
  refine ⟨lookupD_add_child_child s pk ck p c hne hp hc,
    lookupD_add_child_parent s pk ck p hne hp, ?_⟩
  rw [List.count_append]
  rw [List.count_eq_zero.mpr hnew]
  simp

/-- C3 witness: the amended statement at the concrete two-object heap. -/
theorem c3_attach_spec_witness :
    lookupD (str "c") (add_child c3Store (str "p") (str "c"))
      = some { c3Child with parent_id := some (str "p") } ∧
    lookupD (str "p") (add_child c3Store (str "p") (str "c"))
      = some { c3Parent with children := [str "c"] } ∧
    ([] ++ [str "c"] : List PyStr).count (str "c") = 1 :=
  c3_attach_spec c3Store (str "p") (str "c") c3Parent c3Child (by decide) (by decide)
    (by decide) (by decide)

/-! ## Claim C5: reattaching to a second parent -/

/-- C5: attaching an already-attached child to a different parent updates
the child's `parent_id` to the new parent's `id`, but the child stays in
the first parent's `children` list, and the first parent's object is
entirely untouched by the reattachment. -/
theorem c5_reattach_spec (s : Store) (p1k p2k ck : PyStr) (p1 p2 c : ResourceS)
    (h1 : lookupD p1k s = some p1) (h2 : lookupD p2k s = some p2)
    (hc : lookupD ck s = some c)
    (h12 : p1k ≠ p2k) (h1c : p1k ≠ ck) (h2c : p2k ≠ ck) :
    lookupD ck (add_child (add_child s p1k ck) p2k ck)
      = some { c with parent_id := some p2.id } ∧
    lookupD p1k (add_child (add_child s p1k ck) p2k ck)
      = lookupD p1k (add_child s p1k ck) ∧
    lookupD p1k (add_child s p1k ck) = some { p1 with children := p1.children ++ [ck] } ∧
    ck ∈ p1.children ++ [ck] ∧
    lookupD p2k (add_child (add_child s p1k ck) p2k ck)
      = some { p2 with children := p2.children ++ [ck] } := by
  have hc1 : lookupD ck (add_child s p1k ck) = some { c with parent_id := some p1.id } :=
    lookupD_add_child_child s p1k ck p1 c h1c h1 hc
  have hp2of1 : lookupD p2k (add_child s p1k ck) = some p2 := by
    rw [lookupD_add_child_other s p1k ck p2k (fun h => h12 h.symm) h2c]
    exact h2
  refine ⟨?_, ?_, lookupD_add_child_parent s p1k ck p1 h1c h1, by simp, ?_⟩
  · rw [lookupD_add_child_child (add_child s p1k ck) p2k ck p2
      { c with parent_id := some p1.id } h2c hp2of1 hc1]
  · exact lookupD_add_child_other (add_child s p1k ck) p2k ck p1k h12 h1c
  · exact lookupD_add_child_parent (add_child s p1k ck) p2k ck p2 h2c hp2of1

/-- C5 witness: the reattachment facts at a concrete three-object heap. -/
theorem c5_reattach_spec_witness :
    lookupD (str "c") (add_child (add_child c5Store (str "p") (str "c")) (str "q") (str "c"))
      = some { c3Child with parent_id := some (str "q") } ∧
    lookupD (str "p") (add_child (add_child c5Store (str "p") (str "c")) (str "q") (str "c"))
      = lookupD (str "p") (add_child c5Store (str "p") (str "c")) ∧
    lookupD (str "p") (add_child c5Store (str "p") (str "c"))
      = some { c3Parent with children := [str "c"] } ∧
    str "c" ∈ ([] : List PyStr) ++ [str "c"] ∧
    lookupD (str "q") (add_child (add_child c5Store (str "p") (str "c")) (str "q") (str "c"))
      = some { c5Parent2 with children := [str "c"] } :=
  c5_reattach_spec c5Store (str "p") (str "q") (str "c") c3Parent c5Parent2 c3Child
    (by decide) (by decide) (by decide) (by decide) (by decide) (by decide)

/-! ## Ownership accounting on the heap -/

theorem totalOcc_cons (e : PyStr × ResourceS) (rest : Store) (x : PyStr) :
    totalOcc (e :: rest) x = e.2.children.count x + totalOcc rest x := by
  simp [totalOcc]

theorem count_le_totalOcc (s : Store) (k x : PyStr) (v : ResourceS)
    (h : lookupD k s = some v) : v.children.count x ≤ totalOcc s x := by
  induction s with
  | nil => simp [lookupD] at h
  | cons e rest ih =>
    obtain ⟨k0, v0⟩ := e
    rw [totalOcc_cons]
    by_cases h0 : k0 = k
    · subst h0
      simp [lookupD] at h
      subst h
      exact Nat.le_add_right _ _
    · simp only [lookupD, h0, if_false] at h
      have := ih h
      omega

theorem totalOcc_dictInsert (s : Store) (k x : PyStr) (v v0 : ResourceS)
    (h : lookupD k s = some v0) :
    totalOcc (dictInsert k v s) x + v0.children.count x
      = totalOcc s x + v.children.count x := by
  induction s with
  | nil => simp [lookupD] at h
  | cons e rest ih =>
    obtain ⟨k0, w⟩ := e
    by_cases h0 : k0 = k
    · subst h0
      simp [lookupD] at h
      subst h
      simp [dictInsert, totalOcc_cons]
      omega
    · simp only [lookupD, h0, if_false] at h
      simp only [dictInsert, h0, if_false, totalOcc_cons]
      have := ih h
      omega

theorem totalOcc_add_child (s : Store) (pk ck : PyStr) (p : ResourceS)
    (hp : lookupD pk s = some p) (x : PyStr) :
    totalOcc (add_child s pk ck) x = totalOcc s x + List.count x [ck] := by
  have h1 := totalOcc_dictInsert s pk x { p with children := p.children ++ [ck] } p hp
  simp only [List.count_append] at h1
  simp only [add_child, hp]
  split
  · omega
  · rename_i c hc
    have h2 : totalOcc (dictInsert ck { c with parent_id := some p.id }
          (dictInsert pk { p with children := p.children ++ [ck] } s)) x
          + c.children.count x
        = totalOcc (dictInsert pk { p with children := p.children ++ [ck] } s) x
          + c.children.count x :=
      totalOcc_dictInsert
        (dictInsert pk { p with children := p.children ++ [ck] } s)
        ck x { c with parent_id := some p.id } c hc
    omega

theorem lookupD_isSome_add_child (s : Store) (pk ck x : PyStr) :
    (lookupD x (add_child s pk ck)).isSome = (lookupD x s).isSome := by
  have h1 := lookupD_isSome_iff_mem_keys x (add_child s pk ck)
  have h2 := lookupD_isSome_iff_mem_keys x s
  rw [keys_add_child] at h1
  by_cases h : x ∈ s.map Prod.fst
  · rw [h1.mpr h, h2.mpr h]
  · have a1 : (lookupD x (add_child s pk ck)).isSome ≠ true := fun hh => h (h1.mp hh)
    have a2 : (lookupD x s).isSome ≠ true := fun hh => h (h2.mp hh)
    simp only [ne_eq, Bool.not_eq_true] at a1 a2
    rw [a1, a2]

/-- How `add_child s pk ck` transforms an arbitrary entry: the id is
unchanged, the children list gains `[ck]` exactly at the parent, and the
parent pointer of every object other than the child is unchanged. -/
theorem lookupD_add_child_entry (s : Store) (pk ck : PyStr) (p : ResourceS)
    (hp : lookupD pk s = some p) (qk : PyStr) (q : ResourceS)
    (hq : lookupD qk (add_child s pk ck) = some q) :
    ∃ q0, lookupD qk s = some q0 ∧ q.id = q0.id ∧
      q.children = q0.children ++ (if qk = pk then [ck] else []) ∧
      (qk ≠ ck → q.parent_id = q0.parent_id) := by
  by_cases hpc : pk = ck
  · subst hpc
    by_cases hqp : qk = pk
    · subst hqp
      rw [lookupD_add_child_self s qk p hp, Option.some.injEq] at hq
      subst hq
      exact ⟨p, hp, rfl, by simp, fun h => absurd rfl h⟩
    · rw [lookupD_add_child_other s pk pk qk hqp hqp] at hq
      exact ⟨q, hq, rfl, by simp [hqp], fun _ => rfl⟩
  · by_cases hqp : qk = pk
    · subst hqp
      rw [lookupD_add_child_parent s qk ck p hpc hp, Option.some.injEq] at hq
      subst hq
      exact ⟨p, hp, rfl, by simp, fun _ => rfl⟩
    · by_cases hqc : qk = ck
      · subst hqc
        have hck : (lookupD qk s).isSome := by
          rw [← lookupD_isSome_add_child s pk qk qk, hq]
          rfl
        obtain ⟨c, hc⟩ := Option.isSome_iff_exists.mp hck
        rw [lookupD_add_child_child s pk qk p c hpc hp hc, Option.some.injEq] at hq
        subst hq
        exact ⟨c, hc, rfl, by simp [hqp], fun h => absurd rfl h⟩
      · rw [lookupD_add_child_other s pk ck qk hqp hqc] at hq
        exact ⟨q, hq, rfl, by simp [hqp], fun _ => rfl⟩

/-- After `add_child s pk ck`, the child's parent pointer is the parent's
id. -/
theorem parent_id_add_child_child (s : Store) (pk ck : PyStr) (p : ResourceS)
    (hp : lookupD pk s = some p) (hck : (lookupD ck s).isSome) :
    (lookupD ck (add_child s pk ck)).map ResourceS.parent_id = some (some p.id) := by
  by_cases hpc : pk = ck
  · subst hpc
    rw [lookupD_add_child_self s pk p hp]
    rfl
  · obtain ⟨c, hc⟩ := Option.isSome_iff_exists.mp hck
    rw [lookupD_add_child_child s pk ck p c hpc hp hc]
    rfl

/-- `add_child` preserves edge consistency, provided the new child is not
yet owned by anyone. -/
theorem parentLinked_add_child (s : Store) (pk ck : PyStr) (p : ResourceS)
    (hp : lookupD pk s = some p) (hck : (lookupD ck s).isSome)
    (hocc : totalOcc s ck = 0) (hpl : ParentLinked s) :
    ParentLinked (add_child s pk ck) := by
  intro qk q hq ck' hck'
  obtain ⟨q0, hq0, hid, hch, hpid⟩ := lookupD_add_child_entry s pk ck p hp qk q hq
  rw [hch] at hck'
  rcases List.mem_append.mp hck' with hold | hnew
  · -- an edge that already existed
    have hne : ck' ≠ ck := by
      intro h
      subst h
      have h1 := count_le_totalOcc s qk ck' q0 hq0
      rw [hocc] at h1
      have h2 : 0 < q0.children.count ck' := List.count_pos_iff_mem.mpr hold
      omega
    obtain ⟨c, hc, hcp⟩ := hpl qk q0 hq0 ck' hold
    have hsome : (lookupD ck' (add_child s pk ck)).isSome := by
      rw [lookupD_isSome_add_child]
      simp [hc]
    obtain ⟨c', hc'⟩ := Option.isSome_iff_exists.mp hsome
    obtain ⟨c0, hc0, _, _, hcpid⟩ := lookupD_add_child_entry s pk ck p hp ck' c' hc'
    rw [hc] at hc0
    cases hc0
    exact ⟨c', hc', by rw [hcpid hne, hcp, hid]⟩
  · -- the newly appended edge: qk = pk and ck' = ck
    by_cases hqp : qk = pk
    · subst hqp
      simp at hnew
      subst hnew
      have := parent_id_add_child_child s qk ck' p hp hck
      cases hx : lookupD ck' (add_child s qk ck') with
      | none => rw [hx] at this; simp at this
      | some c' =>
        rw [hx] at this
        simp only [Option.map_some', Option.some.injEq] at this
        refine ⟨c', rfl, ?_⟩
        rw [this, hid]
        rw [hq0] at hp
        cases hp
        rfl
    · simp [hqp] at hnew

/-! ## The second pass of `parse_json` -/

theorem lookupD_isSome_congr {s s' : Store} (h : s.map Prod.fst = s'.map Prod.fst)
    (x : PyStr) : (lookupD x s).isSome = (lookupD x s').isSome := by
  have h1 := lookupD_isSome_iff_mem_keys x s
  have h2 := lookupD_isSome_iff_mem_keys x s'
  rw [h] at h1
  by_cases hm : x ∈ s'.map Prod.fst
  · rw [h1.mpr hm, h2.mpr hm]
  · have a1 : (lookupD x s).isSome ≠ true := fun hh => hm (h1.mp hh)
    have a2 : (lookupD x s').isSome ≠ true := fun hh => hm (h2.mp hh)
    simp only [ne_eq, Bool.not_eq_true] at a1 a2
    rw [a1, a2]

theorem resolvableIn_congr {s s' : Store} (h : s.map Prod.fst = s'.map Prod.fst)
    (po : Option PyStr) : resolvableIn s po = resolvableIn s' po := by
  cases po with
  | none => rfl
  | some pid => simp [resolvableIn, lookupD_isSome_congr h]

theorem parent_id_add_child_other (s : Store) (pk ck x : PyStr) (p : ResourceS)
    (hp : lookupD pk s = some p) (hx : x ≠ ck) :
    (lookupD x (add_child s pk ck)).map ResourceS.parent_id
      = (lookupD x s).map ResourceS.parent_id := by
  cases hq : lookupD x (add_child s pk ck) with
  | none =>
    have hiso := lookupD_isSome_add_child s pk ck x
    rw [hq] at hiso
    cases hy : lookupD x s with
    | none => rfl
    | some w => rw [hy] at hiso; simp at hiso
  | some q =>
    obtain ⟨q0, hq0, _, _, hpid⟩ := lookupD_add_child_entry s pk ck p hp x q hq
    rw [hq0]
    simp [hpid hx]

theorem add_child_entry_mono (s : Store) (pk ck : PyStr) (p : ResourceS)
    (hp : lookupD pk s = some p) (qk : PyStr) (q : ResourceS)
    (hq : lookupD qk s = some q) :
    ∃ q', lookupD qk (add_child s pk ck) = some q' ∧ q'.id = q.id ∧
      ∀ c ∈ q.children, c ∈ q'.children := by
  have hsome : (lookupD qk (add_child s pk ck)).isSome := by
    rw [lookupD_isSome_add_child]
    simp [hq]
  obtain ⟨q', hq'⟩ := Option.isSome_iff_exists.mp hsome
  obtain ⟨q0, hq0, hid, hch, _⟩ := lookupD_add_child_entry s pk ck p hp qk q' hq'
  rw [hq] at hq0
  cases hq0
  exact ⟨q', hq', hid, fun c hc => by rw [hch]; exact List.mem_append_left _ hc⟩

/-- After `add_child s pk ck`, the parent's entry holds `ck` among its
children. -/
theorem add_child_parent_holds_child (s : Store) (pk ck : PyStr) (p : ResourceS)
    (hp : lookupD pk s = some p) :
    ∃ p', lookupD pk (add_child s pk ck) = some p' ∧ ck ∈ p'.children := by
  by_cases hpc : pk = ck
  · subst hpc
    exact ⟨_, lookupD_add_child_self s pk p hp, by simp⟩
  · exact ⟨_, lookupD_add_child_parent s pk ck p hpc hp, by simp⟩

/-- The main induction along the second pass of `parse_json`: starting from
a heap in which no key still to be processed is owned, ownership stays
single and edges stay consistent; children lists and the root list only
grow; and every processed key ends up either attached under its parent
reference (when it resolves) or in the root list (when it does not). -/
theorem secondPass_spec : ∀ (ks : List PyStr) (s : Store) (roots : List PyStr),
    ks.Nodup →
    (∀ k ∈ ks, (lookupD k s).isSome) →
    (∀ k ∈ ks, totalOcc s k = 0) →
    (∀ x, totalOcc s x ≤ 1) →
    ParentLinked s →
    (∀ k ∈ ks, k ∉ roots) →
    (secondPass ks s roots).1.map Prod.fst = s.map Prod.fst ∧
    (∀ x, totalOcc (secondPass ks s roots).1 x ≤ 1) ∧
    ParentLinked (secondPass ks s roots).1 ∧
    (∀ x ∈ roots, x ∈ (secondPass ks s roots).2) ∧
    (∀ pk p, lookupD pk s = some p →
      ∃ p', lookupD pk (secondPass ks s roots).1 = some p' ∧ p'.id = p.id ∧
        ∀ c ∈ p.children, c ∈ p'.children) ∧
    (∀ x, x ∈ (secondPass ks s roots).2 → x ∈ roots ∨
      (x ∈ ks ∧ ∀ r, lookupD x s = some r → resolvableIn s r.parent_id = false)) ∧
    (∀ k ∈ ks, ∀ r, lookupD k s = some r →
      (resolvableIn s r.parent_id = false → k ∈ (secondPass ks s roots).2) ∧
      (∀ pid, r.parent_id = some pid → resolvableIn s r.parent_id = true →
        (∃ p', lookupD pid (secondPass ks s roots).1 = some p' ∧ k ∈ p'.children) ∧
        k ∉ (secondPass ks s roots).2)) := by
  intro ks
  induction ks with
  | nil =>
    intro s roots _ _ _ h4 h5 _
    exact ⟨rfl, h4, h5, fun x hx => hx, fun pk p hp => ⟨p, hp, rfl, fun c hc => hc⟩,
      fun x hx => Or.inl hx, fun k hk => absurd hk (List.not_mem_nil k)⟩
  | cons k ks ih =>
    intro s roots h1 h2 h3 h4 h5 h6
    have hknotin : k ∉ ks := (List.nodup_cons.mp h1).1
    have h1' : ks.Nodup := (List.nodup_cons.mp h1).2
    obtain ⟨r, hk⟩ := Option.isSome_iff_exists.mp (h2 k (by simp))
    cases hpar : r.parent_id with
    | some pid =>
      by_cases hcond : pid ≠ [] ∧ (lookupD pid s).isSome
      · -- the parent reference resolves: attach
        simp only [secondPass, hk, hpar, if_pos hcond]
        obtain ⟨p, hpp⟩ := Option.isSome_iff_exists.mp hcond.2
        have hkeys1 : (add_child s pid k).map Prod.fst = s.map Prod.fst :=
          keys_add_child s pid k
        have hres : resolvableIn s r.parent_id = true := by
          rw [hpar]
          simp [resolvableIn, hcond.1, hcond.2]
        have hoccs : ∀ x, totalOcc (add_child s pid k) x
            = totalOcc s x + List.count x [k] :=
          totalOcc_add_child s pid k p hpp
        have hcount0 : ∀ x, x ≠ k → List.count x ([k] : List PyStr) = 0 := by
          intro x hx
          simp [List.count_cons, hx]
        have ihc := ih (add_child s pid k) roots h1'
          (fun x hx => by rw [lookupD_isSome_add_child]; exact h2 x (by simp [hx]))
          (fun x hx => by
            rw [hoccs, hcount0 x (fun he => hknotin (he ▸ hx))]
            rw [h3 x (by simp [hx])])
          (fun x => by
            by_cases hxk : x = k
            · subst hxk
              rw [hoccs, h3 x (by simp)]
              simp [List.count_cons]
            · rw [hoccs, hcount0 x hxk]
              have := h4 x
              omega)
          (parentLinked_add_child s pid k p hpp (h2 k (by simp)) (h3 k (by simp)) h5)
          (fun x hx => h6 x (by simp [hx]))
        obtain ⟨ih1, ih2, ih3, ih4, ih5, ih6, ih7⟩ := ihc
        have hparpres : ∀ x ∈ ks, ∀ r0, lookupD x s = some r0 →
            ∀ r1, lookupD x (add_child s pid k) = some r1 → r1.parent_id = r0.parent_id := by
          intro x hx r0 hr0 r1 hr1
          have hxk : x ≠ k := fun he => hknotin (he ▸ hx)
          have := parent_id_add_child_other s pid k x p hpp hxk
          rw [hr0, hr1] at this
          simpa using this
        refine ⟨ih1.trans hkeys1, ih2, ih3, ih4, ?_, ?_, ?_⟩
        · -- children lists only grow
          intro pk0 p0 hp0
          obtain ⟨p1, hp1, hid1, hmono1⟩ := add_child_entry_mono s pid k p hpp pk0 p0 hp0
          obtain ⟨p2, hp2, hid2, hmono2⟩ := ih5 pk0 p1 hp1
          exact ⟨p2, hp2, hid2.trans hid1, fun c hc => hmono2 c (hmono1 c hc)⟩
        · -- provenance of roots
          intro x hx
          rcases ih6 x hx with hin | ⟨hxks, hcond'⟩
          · exact Or.inl hin
          · refine Or.inr ⟨by simp [hxks], ?_⟩
            intro r0 hr0
            have hxk : x ≠ k := fun he => hknotin (he ▸ hxks)
            have hsome1 : (lookupD x (add_child s pid k)).isSome := by
              rw [lookupD_isSome_add_child]
              simp [hr0]
            obtain ⟨r1, hr1⟩ := Option.isSome_iff_exists.mp hsome1
            have hpe := hparpres x hxks r0 hr0 r1 hr1
            have := hcond' r1 hr1
            rw [hpe] at this
            rw [← resolvableIn_congr hkeys1 r0.parent_id]
            exact this
        · -- the per-key resolution property
          intro k0 hk0 r0 hr0
          rcases List.mem_cons.mp hk0 with hk0 | hk0
          · -- the head key: it was attached in this step
            subst hk0
            rw [hk] at hr0
            cases hr0
            constructor
            · intro hfalse
              rw [hres] at hfalse
              cases hfalse
            · intro pid0 hpid0 _
              rw [hpar] at hpid0
              cases hpid0
              constructor
              · obtain ⟨p1, hp1, hmem1⟩ := add_child_parent_holds_child s pid k0 p hpp
                obtain ⟨p2, hp2, _, hmono2⟩ := ih5 pid p1 hp1
                exact ⟨p2, hp2, hmono2 k0 hmem1⟩
              · intro hmem
                rcases ih6 k0 hmem with hin | ⟨hinks, _⟩
                · exact h6 k0 (by simp) hin
                · exact hknotin hinks
          · -- a later key: lift the induction hypothesis back to `s`
            have hxk : k0 ≠ k := fun he => hknotin (he ▸ hk0)
            have hsome1 : (lookupD k0 (add_child s pid k)).isSome := by
              rw [lookupD_isSome_add_child]
              simp [hr0]
            obtain ⟨r1, hr1⟩ := Option.isSome_iff_exists.mp hsome1
            have hpe := hparpres k0 hk0 r0 hr0 r1 hr1
            have hres1 : resolvableIn (add_child s pid k) r1.parent_id
                = resolvableIn s r0.parent_id := by
              rw [hpe]
              exact resolvableIn_congr hkeys1 r0.parent_id
            obtain ⟨c1, c2⟩ := ih7 k0 hk0 r1 hr1
            constructor
            · intro hfalse
              exact c1 (by rw [hres1, hfalse])
            · intro pid0 hpid0 htrue
              exact c2 pid0 (by rw [hpe, hpid0]) (by rw [hres1, htrue])
      · -- the parent reference does not resolve: the key becomes a root
        simp only [secondPass, hk, hpar, if_neg hcond]
        have hres : resolvableIn s r.parent_id = false := by
          rw [hpar]
          simp only [resolvableIn]
          rcases not_and_or.mp hcond with hc | hc
          · simp at hc
            simp [hc]
          · simp only [Bool.not_eq_true] at hc
            simp [hc]
        have ihc := ih s (roots ++ [k]) h1'
          (fun x hx => h2 x (by simp [hx]))
          (fun x hx => h3 x (by simp [hx]))
          h4 h5
          (fun x hx hmem => by
            rcases List.mem_append.mp hmem with hin | hin
            · exact h6 x (by simp [hx]) hin
            · simp at hin
              exact hknotin (hin ▸ hx))
        obtain ⟨ih1, ih2, ih3, ih4, ih5, ih6, ih7⟩ := ihc
        refine ⟨ih1, ih2, ih3, fun x hx => ih4 x (by simp [hx]), ih5, ?_, ?_⟩
        · intro x hx
          rcases ih6 x hx with hin | ⟨hxks, hcond'⟩
          · rcases List.mem_append.mp hin with hin | hin
            · exact Or.inl hin
            · simp at hin
              subst hin
              refine Or.inr ⟨by simp, ?_⟩
              intro r0 hr0
              rw [hk] at hr0
              cases hr0
              exact hres
          · exact Or.inr ⟨by simp [hxks], hcond'⟩
        · intro k0 hk0 r0 hr0
          rcases List.mem_cons.mp hk0 with hk0 | hk0
          · subst hk0
            rw [hk] at hr0
            cases hr0
            constructor
            · intro _
              exact ih4 k0 (by simp)
            · intro pid0 hpid0 htrue
              rw [hres] at htrue
              cases htrue
          · exact ih7 k0 hk0 r0 hr0
    | none =>
      simp only [secondPass, hk, hpar]
      have hres : resolvableIn s r.parent_id = false := by rw [hpar]; rfl
      have ihc := ih s (roots ++ [k]) h1'
        (fun x hx => h2 x (by simp [hx]))
        (fun x hx => h3 x (by simp [hx]))
        h4 h5
        (fun x hx hmem => by
          rcases List.mem_append.mp hmem with hin | hin
          · exact h6 x (by simp [hx]) hin
          · simp at hin
            exact hknotin (hin ▸ hx))
      obtain ⟨ih1, ih2, ih3, ih4, ih5, ih6, ih7⟩ := ihc
      refine ⟨ih1, ih2, ih3, fun x hx => ih4 x (by simp [hx]), ih5, ?_, ?_⟩
      · intro x hx
        rcases ih6 x hx with hin | ⟨hxks, hcond'⟩
        · rcases List.mem_append.mp hin with hin | hin
          · exact Or.inl hin
          · simp at hin
            subst hin
            refine Or.inr ⟨by simp, ?_⟩
            intro r0 hr0
            rw [hk] at hr0
            cases hr0
            exact hres
        · exact Or.inr ⟨by simp [hxks], hcond'⟩
      · intro k0 hk0 r0 hr0
        rcases List.mem_cons.mp hk0 with hk0 | hk0
        · subst hk0
          rw [hk] at hr0
          cases hr0
          constructor
          · intro _
            exact ih4 k0 (by simp)
          · intro pid0 hpid0 htrue
            rw [hpar] at hpid0
            cases hpid0
        · exact ih7 k0 hk0 r0 hr0

/-! ### The initial heap built by the first pass -/

theorem mem_dictInsert {α β : Type} [DecidableEq α] (k : α) (v : β) (d : List (α × β))
    (e : α × β) (h : e ∈ dictInsert k v d) : e = (k, v) ∨ e ∈ d := by
  induction d with
  | nil => simpa [dictInsert] using h
  | cons e0 rest ih =>
    obtain ⟨k0, v0⟩ := e0
    by_cases h0 : k0 = k
    · subst h0
      simp only [dictInsert, if_pos rfl] at h
      rcases List.mem_cons.mp h with h | h
      · exact Or.inl h
      · exact Or.inr (List.mem_cons_of_mem _ h)
    · simp only [dictInsert, h0, if_false] at h
      rcases List.mem_cons.mp h with h | h
      · exact Or.inr (h ▸ List.mem_cons_self _ _)
      · rcases ih h with h | h
        · exact Or.inl h
        · exact Or.inr (List.mem_cons_of_mem _ h)

theorem buildById_entry_children (records : List LKRecord) :
    ∀ e ∈ buildById records, e.2.children = [] := by
  suffices h : ∀ (rs : List LKRecord) (d : Store), (∀ e ∈ d, e.2.children = []) →
      ∀ e ∈ rs.foldl (fun d r => dictInsert (parse_resource r).id (parse_resource r) d) d,
        e.2.children = [] by
    intro e he
    exact h records [] (fun e he => absurd he (List.not_mem_nil e)) e he
  intro rs
  induction rs with
  | nil => intro d hd; exact hd
  | cons rec rest ih =>
    intro d hd
    simp only [List.foldl_cons]
    refine ih _ ?_
    intro e he
    rcases mem_dictInsert _ _ _ e he with he | he
    · rw [he]
      rfl
    · exact hd e he

theorem totalOcc_eq_zero (s : Store) (h : ∀ e ∈ s, e.2.children = []) (x : PyStr) :
    totalOcc s x = 0 := by
  induction s with
  | nil => rfl
  | cons e rest ih =>
    rw [totalOcc_cons, h e (List.mem_cons_self _ _),
      ih (fun e he => h e (List.mem_cons_of_mem _ he))]
    rfl

theorem totalOcc_buildById (records : List LKRecord) (x : PyStr) :
    totalOcc (buildById records) x = 0 :=
  totalOcc_eq_zero _ (buildById_entry_children records) x

theorem parentLinked_buildById (records : List LKRecord) :
    ParentLinked (buildById records) := by
  intro pk p hp ck hck
  have := buildById_entry_children records (pk, p) (lookupD_mem pk p _ hp)
  simp only at this
  rw [this] at hck
  exact absurd hck (List.not_mem_nil ck)

theorem keys_dictInsert_nodup {α β : Type} [DecidableEq α] (k : α) (v : β)
    (d : List (α × β)) (h : (d.map Prod.fst).Nodup) :
    ((dictInsert k v d).map Prod.fst).Nodup := by
  cases hx : lookupD k d with
  | some w =>
    rw [keys_dictInsert_of_mem _ _ _ (by simp [hx])]
    exact h
  | none =>
    rw [keys_dictInsert_of_not_mem _ _ _ hx]
    have hnot : k ∉ d.map Prod.fst := (lookupD_eq_none_iff_not_mem k d).mp hx
    simp [List.nodup_append, h, hnot]

theorem buildById_keys_nodup (records : List LKRecord) :
    ((buildById records).map Prod.fst).Nodup := by
  suffices h : ∀ (rs : List LKRecord) (d : Store), (d.map Prod.fst).Nodup →
      ((rs.foldl (fun d r => dictInsert (parse_resource r).id (parse_resource r) d) d).map
        Prod.fst).Nodup by
    exact h records [] List.nodup_nil
  intro rs
  induction rs with
  | nil => intro d hd; exact hd
  | cons rec rest ih =>
    intro d hd
    simp only [List.foldl_cons]
    exact ih _ (keys_dictInsert_nodup _ _ _ hd)

/-- The invariant bundle of the whole `parse_json` run. -/
theorem parse_json_spec (records : List LKRecord) :
    (∀ x, totalOcc (parse_json records).1 x ≤ 1) ∧
    ParentLinked (parse_json records).1 ∧
    (∀ k r, lookupD k (buildById records) = some r →
      (resolvableIn (buildById records) r.parent_id = false →
        k ∈ (parse_json records).2) ∧
      (∀ pid, r.parent_id = some pid →
        resolvableIn (buildById records) r.parent_id = true →
        (∃ p, lookupD pid (parse_json records).1 = some p ∧ k ∈ p.children) ∧
        k ∉ (parse_json records).2)) := by
  have hspec := secondPass_spec ((buildById records).map Prod.fst) (buildById records) []
    (buildById_keys_nodup records)
    (fun x hx => (lookupD_isSome_iff_mem_keys x _).mpr hx)
    (fun x _ => totalOcc_buildById records x)
    (fun x => by rw [totalOcc_buildById]; omega)
    (parentLinked_buildById records)
    (fun x _ h => absurd h (List.not_mem_nil x))
  obtain ⟨_, hocc, hpl, _, _, _, h7⟩ := hspec
  refine ⟨hocc, hpl, ?_⟩
  intro k r hk
  have hmem : k ∈ (buildById records).map Prod.fst :=
    (lookupD_isSome_iff_mem_keys k _).mp (by simp [hk])
  exact h7 k hmem r hk

/-! ## Claim C4: the hierarchy is not always a forest -/

/-- C4, counterexample: a record whose `parentId` is its own id.
`parse_json` attaches the resource to itself — the final heap contains a
resource that is its own child, a cycle — and the root list is empty, so
the "forest with no cycles" invariant fails. -/
theorem c4_cycle_counterexample :
    lookupD (str "a") (parse_json [c4Record]).1
      = some { id := str "a", parent_id := some (str "a"), children := [str "a"] } ∧
    (parse_json [c4Record]).2 = [] := by
  constructor
  · rfl
  · rfl

/-- C4, amended: in every hierarchy built by `parse_json`, each resource
occurs in at most one parent's children list (and at most once there), and
every child's `parent_id` equals its parent's `id`; but the structure need
not be a forest — self- or mutually-referencing parent ids produce cycles
detached from the root list. -/
theorem c4_single_ownership (records : List LKRecord) :
    (∀ x, totalOcc (parse_json records).1 x ≤ 1) ∧
    ParentLinked (parse_json records).1 :=
  ⟨(parse_json_spec records).1, (parse_json_spec records).2.1⟩

/-! ## Claim C9: unresolved parent references fall back to roots -/

/-- C9: a record whose parent reference is absent, empty, or names an
unknown id is recorded as a root (and `parse_json` is a total function, so
no error is raised); a record whose parent reference resolves is attached
as a child of that parent and is not a root. -/
theorem c9_parent_resolution (records : List LKRecord) (k : PyStr) (r : ResourceS)
    (hk : lookupD k (buildById records) = some r) :
    (resolvableIn (buildById records) r.parent_id = false →
      k ∈ (parse_json records).2) ∧
    (∀ pid, r.parent_id = some pid →
      resolvableIn (buildById records) r.parent_id = true →
      (∃ p, lookupD pid (parse_json records).1 = some p ∧ k ∈ p.children) ∧
      k ∉ (parse_json records).2) :=
  (parse_json_spec records).2.2 k r hk

/-- Records for the C9 witness: one resource with an unresolvable parent,
one root, one properly parented resource. -/
def c9Records : List LKRecord :=
  [{ id := str "x", parentId := some (str "nope") },
   { id := str "p" },
   { id := str "y", parentId := some (str "p") }]

/-- C9 witness: in the concrete run, `y` ends up under `p` and off the root
list, while `x` (whose parent id resolves to nothing) is a root. -/
theorem c9_parent_resolution_witness :
    ((∃ p, lookupD (str "p") (parse_json c9Records).1 = some p ∧
        str "y" ∈ p.children) ∧
      str "y" ∉ (parse_json c9Records).2) ∧
    str "x" ∈ (parse_json c9Records).2 :=
  ⟨(c9_parent_resolution c9Records (str "y")
      { id := str "y", parent_id := some (str "p") } (by decide)).2
    (str "p") rfl (by decide),
   (c9_parent_resolution c9Records (str "x")
      { id := str "x", parent_id := some (str "nope") } (by decide)).1 (by decide)⟩

/-! ## String lemmas

Elementary facts about `lstrip`, `rstrip`, `pstrip` and `splitLines`,
used throughout the codec and parser proofs. -/

theorem lstrip_cons_of_not_space (c : Char) (t : PyStr) (h : isPySpace c = false) :
    lstrip (c :: t) = c :: t := by
  simp [lstrip, List.dropWhile_cons, h]

theorem lstrip_cons_of_space (c : Char) (t : PyStr) (h : isPySpace c = true) :
    lstrip (c :: t) = lstrip t := by
  simp [lstrip, List.dropWhile_cons, h]

theorem lstrip_eq_nil_iff (s : PyStr) : lstrip s = [] ↔ ∀ c ∈ s, isPySpace c := by
  simp [lstrip, List.dropWhile_eq_nil_iff]

theorem rstrip_eq_nil_iff (s : PyStr) : rstrip s = [] ↔ ∀ c ∈ s, isPySpace c := by
  simp [rstrip, List.dropWhile_eq_nil_iff]

theorem rstrip_nil_iff_drop (t : PyStr) :
    rstrip t = [] ↔ List.dropWhile isPySpace t.reverse = [] := by
  simp [rstrip]

theorem rstrip_cons (c : Char) (t : PyStr) :
    rstrip (c :: t) = if rstrip t = [] then (if isPySpace c then [] else [c])
      else c :: rstrip t := by
  have hsplit := @List.dropWhile_append _ isPySpace t.reverse [c]
  by_cases h : rstrip t = []
  · have h' : List.dropWhile isPySpace t.reverse = [] := (rstrip_nil_iff_drop t).mp h
    rw [if_pos h]
    simp only [rstrip, List.reverse_cons, hsplit, h']
    by_cases hc : isPySpace c <;> simp [List.dropWhile_cons, hc]
  · have h' : List.dropWhile isPySpace t.reverse ≠ [] :=
      fun hh => h ((rstrip_nil_iff_drop t).mpr hh)
    rw [if_neg h]
    simp only [rstrip, List.reverse_cons, hsplit]
    rw [if_neg (by simpa using h')]
    simp

theorem rstrip_ne_nil_of_head (c : Char) (t : PyStr) (h : isPySpace c = false) :
    rstrip (c :: t) ≠ [] := by
  rw [rstrip_cons]
  by_cases ht : rstrip t = [] <;> simp [ht, h]

theorem rstrip_cons_of_not_space (c : Char) (t : PyStr) (h : isPySpace c = false) :
    ∃ u, rstrip (c :: t) = c :: u := by
  rw [rstrip_cons]
  by_cases ht : rstrip t = [] <;> simp [ht, h]

theorem lstrip_head_not_space : ∀ (s : PyStr) (c : Char) (t : PyStr),
    lstrip s = c :: t → isPySpace c = false := by
  intro s
  induction s with
  | nil => intro c t h; simp [lstrip] at h
  | cons c0 s ih =>
    intro c t h
    by_cases h0 : isPySpace c0
    · rw [lstrip_cons_of_space c0 s h0] at h
      exact ih c t h
    · rw [lstrip_cons_of_not_space c0 s (by simpa using h0)] at h
      cases h
      simpa using h0

theorem pstrip_eq_nil_iff (s : PyStr) : pstrip s = [] ↔ ∀ c ∈ s, isPySpace c := by
  constructor
  · intro h
    rw [← lstrip_eq_nil_iff]
    cases hx : lstrip s with
    | nil => rfl
    | cons c t =>
      have hc := lstrip_head_not_space s c t hx
      rw [pstrip, hx] at h
      exact absurd h (rstrip_ne_nil_of_head c t hc)
  · intro h
    rw [pstrip, (lstrip_eq_nil_iff s).mpr h]
    rfl

theorem lstrip_decomposition (s : PyStr) :
    ∃ w, s = w ++ lstrip s ∧ ∀ c ∈ w, isPySpace c :=
  ⟨List.takeWhile isPySpace s, (List.takeWhile_append_dropWhile _ _).symm,
   fun _ hc => List.mem_takeWhile_imp hc⟩

theorem rstrip_decomposition (s : PyStr) :
    ∃ w, s = rstrip s ++ w ∧ ∀ c ∈ w, isPySpace c := by
  refine ⟨(List.takeWhile isPySpace s.reverse).reverse, ?_, fun c hc =>
    List.mem_takeWhile_imp (List.mem_reverse.mp hc)⟩
  have h2 := congrArg List.reverse
    (List.takeWhile_append_dropWhile (p := isPySpace) (l := s.reverse))
  simp only [List.reverse_append, List.reverse_reverse] at h2
  rw [rstrip]
  exact h2.symm

theorem dropWhile_idem (p : Char → Bool) (l : PyStr) :
    List.dropWhile p (List.dropWhile p l) = List.dropWhile p l := by
  induction l with
  | nil => rfl
  | cons c t ih =>
    by_cases hc : p c
    · simp [List.dropWhile_cons, hc, ih]
    · simp [List.dropWhile_cons, hc]

theorem rstrip_idem (s : PyStr) : rstrip (rstrip s) = rstrip s := by
  simp [rstrip, List.reverse_reverse, dropWhile_idem]

theorem pstrip_idem (s : PyStr) : pstrip (pstrip s) = pstrip s := by
  show rstrip (lstrip (rstrip (lstrip s))) = rstrip (lstrip s)
  cases hx : lstrip s with
  | nil => rfl
  | cons c t =>
    have hc := lstrip_head_not_space s c t hx
    obtain ⟨u, hu⟩ := rstrip_cons_of_not_space c t hc
    rw [hu, lstrip_cons_of_not_space c u hc, ← hu, rstrip_idem]

theorem rstrip_front (s : PyStr) : rstrip s <+: s := by
  have hs : List.dropWhile isPySpace s.reverse <:+ s.reverse := List.dropWhile_suffix _
  have h2 := List.reverse_prefix.mpr hs
  simpa [rstrip] using h2

theorem trimmed_parts (s : PyStr) (h : pstrip s = s) :
    lstrip s = s ∧ rstrip s = s := by
  have hsuf : lstrip s <:+ s := List.dropWhile_suffix isPySpace
  have hlen1 : (lstrip s).length ≤ s.length := hsuf.length_le
  have hlen2 : (rstrip (lstrip s)).length ≤ (lstrip s).length :=
    (rstrip_front (lstrip s)).length_le
  have hlen0 : (pstrip s).length = s.length := congrArg List.length h
  rw [pstrip] at hlen0
  have hlen : (lstrip s).length = s.length := by omega
  have hls : lstrip s = s := hsuf.eq_of_length hlen
  rw [pstrip, hls] at h
  exact ⟨hls, h⟩

theorem pstrip_cons_space (c : Char) (t : PyStr) (h : isPySpace c = true) :
    pstrip (c :: t) = pstrip t := by
  simp [pstrip, lstrip, List.dropWhile_cons, h]

theorem lstrip_append_of_ne_nil (a b : PyStr) (h : lstrip a ≠ []) :
    lstrip (a ++ b) = lstrip a ++ b := by
  have h' : ¬ (List.dropWhile isPySpace a).isEmpty = true :=
    fun hh => h (List.isEmpty_iff.mp hh)
  simp only [lstrip, List.dropWhile_append]
  rw [if_neg h']

theorem rstrip_append_of_ne_nil (a b : PyStr) (h : rstrip b ≠ []) :
    rstrip (a ++ b) = a ++ rstrip b := by
  have h' : List.dropWhile isPySpace b.reverse ≠ [] :=
    fun hh => h ((rstrip_nil_iff_drop b).mpr hh)
  have h2 : ¬ (List.dropWhile isPySpace b.reverse).isEmpty = true :=
    fun hh => h' (List.isEmpty_iff.mp hh)
  simp only [rstrip, List.reverse_append, List.dropWhile_append]
  rw [if_neg h2]
  simp

theorem pstrip_subset (s : PyStr) : pstrip s ⊆ s := by
  intro c hc
  exact (List.dropWhile_suffix isPySpace).subset ((rstrip_front (lstrip s)).subset hc)

/-- The strip of a joined pair of nonblank words keeps the separating space
and the inner parts intact. -/
theorem pstrip_append_sep (a b : PyStr) (ha : pstrip a ≠ []) (hb : pstrip b ≠ []) :
    pstrip (a ++ ' ' :: b) = lstrip a ++ ' ' :: rstrip b := by
  have hla : lstrip a ≠ [] := by
    intro h
    exact ha ((pstrip_eq_nil_iff a).mpr ((lstrip_eq_nil_iff a).mp h))
  have hrb : rstrip b ≠ [] := by
    intro h
    exact hb ((pstrip_eq_nil_iff b).mpr ((rstrip_eq_nil_iff b).mp h))
  have hrsb : rstrip (' ' :: b) = ' ' :: rstrip b := by
    rw [rstrip_cons, if_neg hrb]
  rw [pstrip, lstrip_append_of_ne_nil a (' ' :: b) hla,
    rstrip_append_of_ne_nil (lstrip a) (' ' :: b) (by rw [hrsb]; simp), hrsb]

/-! ### Splitting at newlines -/

theorem splitLines_ne_nil : ∀ s : PyStr, splitLines s ≠ [] := by
  intro s
  induction s with
  | nil => simp [splitLines]
  | cons c cs _ =>
    simp only [splitLines]
    by_cases hc : c = '\n'
    · simp [hc]
    · rw [if_neg hc]
      cases hx : splitLines cs with
      | nil => simp
      | cons l ls => simp

theorem not_newline_mem_splitLines : ∀ (s : PyStr) (l : PyStr),
    l ∈ splitLines s → '\n' ∉ l := by
  intro s
  induction s with
  | nil =>
    intro l h
    simp [splitLines] at h
    simp [h]
  | cons c cs ih =>
    intro l h
    simp only [splitLines] at h
    by_cases hc : c = '\n'
    · rw [if_pos hc] at h
      rcases List.mem_cons.mp h with h | h
      · simp [h]
      · exact ih l h
    · rw [if_neg hc] at h
      cases hx : splitLines cs with
      | nil => exact absurd hx (splitLines_ne_nil cs)
      | cons l0 ls =>
        rw [hx] at h
        rcases List.mem_cons.mp h with h | h
        · subst h
          intro hmem
          rcases List.mem_cons.mp hmem with h | h
          · exact hc h.symm
          · exact ih l0 (hx ▸ List.mem_cons_self l0 ls) h
        · exact ih l (hx ▸ List.mem_cons_of_mem l0 h)

theorem splitLines_append_newline : ∀ (a b : PyStr), '\n' ∉ a →
    splitLines (a ++ '\n' :: b) = a :: splitLines b := by
  intro a
  induction a with
  | nil =>
    intro b _
    simp [splitLines]
  | cons c t ih =>
    intro b hnl
    have hc : c ≠ '\n' := fun h => hnl (h ▸ List.mem_cons_self c t)
    simp only [List.cons_append, splitLines]
    rw [if_neg hc]
    simp only [List.append_eq]
    rw [ih b (fun h => hnl (List.mem_cons_of_mem c h))]

theorem splitLines_of_no_newline : ∀ l : PyStr, '\n' ∉ l → splitLines l = [l] := by
  intro l
  induction l with
  | nil => intro _; rfl
  | cons c t ih =>
    intro h
    have hc : c ≠ '\n' := fun hh => h (hh ▸ List.mem_cons_self c t)
    simp only [splitLines]
    rw [if_neg hc, ih (fun hh => h (List.mem_cons_of_mem c hh))]

/-! ### Joining -/

theorem joinLines_single (l : PyStr) : joinLines [l] = l := by
  simp [joinLines, List.intercalate]

theorem joinLines_cons_cons (a b : PyStr) (ls : List PyStr) :
    joinLines (a :: b :: ls) = a ++ '\n' :: joinLines (b :: ls) := by
  simp [joinLines, List.intercalate, List.intersperse]

theorem joinSpace_single (l : PyStr) : joinSpace [l] = l := by
  simp [joinSpace, List.intercalate]

theorem joinSpace_cons_cons (a b : PyStr) (ls : List PyStr) :
    joinSpace (a :: b :: ls) = a ++ ' ' :: joinSpace (b :: ls) := by
  simp [joinSpace, List.intercalate, List.intersperse]

theorem splitLines_joinLines : ∀ ls : List PyStr, ls ≠ [] → (∀ l ∈ ls, '\n' ∉ l) →
    splitLines (joinLines ls) = ls := by
  intro ls
  induction ls with
  | nil => intro h; cases h rfl
  | cons l ls ih =>
    intro _ hnl
    cases ls with
    | nil =>
      rw [joinLines_single, splitLines_of_no_newline l (hnl l (List.mem_cons_self l []))]
    | cons l2 ls2 =>
      rw [joinLines_cons_cons, splitLines_append_newline l _ (hnl l (List.mem_cons_self _ _)),
        ih (by simp) (fun x hx => hnl x (List.mem_cons_of_mem _ hx))]

/-! ## Claim C8: flattening is a pre-order traversal -/

theorem collect_length : ∀ rs : List Resource, (collect rs).length = forestSize rs
  | [] => by simp [collect, forestSize]
  | r :: rs => by
    have h1 := collect_length r.children
    have h2 := collect_length rs
    simp only [collect, forestSize, treeSize, List.length_cons, List.length_append]
    omega
termination_by rs => sizeOf rs
decreasing_by all_goals
  first
    | exact lt_of_le_of_lt (Nat.le_of_lt (Resource.sizeOf_children_lt _)) (by simp <;> omega)
    | (simp <;> omega)

theorem collect_segment : ∀ (rs : List Resource) (r : Resource), r ∈ collect rs →
    ∃ pre post, collect rs = pre ++ r :: (collect r.children ++ post)
  | [], r, h => by simp [collect] at h
  | r0 :: rs, r, h => by
    rw [show collect (r0 :: rs) = r0 :: (collect r0.children ++ collect rs) from by
      simp [collect]] at h
    rcases List.mem_cons.mp h with h | h
    · subst h
      exact ⟨[], collect rs, by simp [collect]⟩
    · rcases List.mem_append.mp h with h | h
      · obtain ⟨pre, post, hps⟩ := collect_segment r0.children r h
        refine ⟨r0 :: pre, post ++ collect rs, ?_⟩
        simp [collect, hps]
      · obtain ⟨pre, post, hps⟩ := collect_segment rs r h
        refine ⟨r0 :: (collect r0.children ++ pre), post, ?_⟩
        simp [collect, hps]
termination_by rs => sizeOf rs
decreasing_by all_goals
  first
    | exact lt_of_le_of_lt (Nat.le_of_lt (Resource.sizeOf_children_lt _)) (by simp <;> omega)
    | (simp <;> omega)

/-- C8: `get_all_resources` returns exactly one entry per resource of the
forest (counting all nested descendants), and the output is the pre-order:
every listed resource is immediately followed by the flattened block of its
own children (children in list order), with the rest after it. -/
theorem c8_flatten_preorder (d : ConversionData) :
    d.get_all_resources.length = forestSize d.resources ∧
    ∀ r ∈ d.get_all_resources, ∃ pre post,
      d.get_all_resources = pre ++ r :: (collect r.children ++ post) :=
  ⟨collect_length d.resources, fun r hr => collect_segment d.resources r hr⟩

/-- C8 witness: the concrete two-root forest (three resources in total). -/
theorem c8_flatten_preorder_witness :
    c8Data.get_all_resources.length = forestSize c8Data.resources ∧
    (∃ pre post,
      c8Data.get_all_resources = pre ++ c8Root1 :: (collect c8Root1.children ++ post)) :=
  ⟨(c8_flatten_preorder c8Data).1,
   (c8_flatten_preorder c8Data).2 c8Root1 (by
     simp [ConversionData.get_all_resources, c8Data, collect])⟩

/-! ## Claim C2: codec fallbacks -/

theorem isPrefixOf_cons_cons (a b : Char) (as bs : PyStr) :
    List.isPrefixOf (a :: as) (b :: bs) = (a == b && List.isPrefixOf as bs) := rfl

/-- C2: the fallback behaviour of the codec.  An unrecognized node with a
content list serializes to the serialization of that list; one without a
content list serializes to the empty string; an unclassifiable line (an
image-looking line that fails the image regex — every other line falls into
some recognized branch) contributes no node.  Totality and freedom from
exceptions hold by construction: both directions are total functions whose
every operation mirrors a non-raising Python string or dict operation. -/
theorem c2_codec_fallbacks :
    (∀ c : List Node, process_one (Node.other (some c)) = process_nodes c) ∧
    process_one (Node.other none) = [] ∧
    (∀ (line : PyStr) (rest : List PyStr),
      List.isPrefixOf (str "![") (pstrip line) = true →
      matchImage (pstrip line) = none →
      parseBlocks (line :: rest) = parseBlocks rest) := by
  refine ⟨?_, ?_, ?_⟩
  · intro c
    cases c with
    | nil => simp [process_one, process_nodes]
    | cons n ns => simp [process_one]
  · simp [process_one]
  · intro line rest himg hmatch
    obtain ⟨u, hu⟩ : ∃ u, pstrip line = '!' :: '[' :: u := by
      obtain ⟨u, h⟩ := List.isPrefixOf_iff_prefix.mp himg
      exact ⟨u, h.symm⟩
    have hne : ¬ pstrip line = [] := by rw [hu]; simp
    have hraw : ¬ List.isPrefixOf (str "#") line = true := by
      cases hl : line with
      | nil => simp [str]
      | cons c t =>
        by_cases hch : c = '#'
        · exfalso
          subst hch
          have hnc : isPySpace '#' = false := by decide
          have h1 : pstrip ('#' :: t) = rstrip ('#' :: t) := by
            rw [pstrip, lstrip_cons_of_not_space _ _ hnc]
          obtain ⟨v, hv⟩ := rstrip_cons_of_not_space '#' t hnc
          rw [hl, h1, hv] at hu
          cases hu
        · simp only [str, isPrefixOf_cons_cons]
          intro hx
          simp at hx
          exact hch hx.symm
    have hrule : ¬ (pstrip line = str "---" ∨ pstrip line = str "***"
        ∨ pstrip line = str "___") := by
      rw [hu]
      rintro (h | h | h) <;> simp [str] at h
    have hbullet : ¬ (List.isPrefixOf (str "-") (pstrip line)
        ∨ List.isPrefixOf (str "*") (pstrip line)
        ∨ List.isPrefixOf (str "+") (pstrip line)) := by
      rw [hu]
      rintro (h | h | h) <;> simp [str, isPrefixOf_cons_cons] at h
    have hquote : ¬ List.isPrefixOf (str ">") (pstrip line) = true := by
      rw [hu]
      simp [str, isPrefixOf_cons_cons]
    simp only [parseBlocks, if_neg hne, if_neg hraw, if_neg hrule, if_neg hbullet,
      if_neg hquote, if_pos himg, hmatch]

/-- C2 witness: a concrete malformed image line contributes nothing. -/
theorem c2_codec_fallbacks_witness :
    parseBlocks [str "![oops"] = parseBlocks [] :=
  c2_codec_fallbacks.2.2 (str "![oops") [] (by decide) (by decide)

/-! ## Claim C6: filename name and ID extraction -/

theorem hex_not_space (c : Char) (h : isHexLower c = true) : isPySpace c = false := by
  by_contra hcon
  simp only [Bool.not_eq_false] at hcon
  simp only [isPySpace, Bool.or_eq_true, decide_eq_true_eq] at hcon
  rcases hcon with ((((hc | hc) | hc) | hc) | hc) | hc <;> subst hc <;>
    exact absurd h (by decide)

theorem hexHereMatch_iff (r : PyStr) :
    hexHereMatch r = true ↔
      32 ≤ r.length ∧ (∀ c ∈ r.take 32, isHexLower c) ∧
      (r.drop 32 = [] ∨ r.drop 32 = [ '\n' ]) := by
  simp [hexHereMatch, List.all_eq_true]
  exact and_assoc

theorem hexTailMatch_iff (r : PyStr) :
    hexTailMatch r = true ↔
      r.takeWhile isPySpace ≠ [] ∧ 32 ≤ (r.dropWhile isPySpace).length ∧
      (∀ c ∈ (r.dropWhile isPySpace).take 32, isHexLower c) ∧
      ((r.dropWhile isPySpace).drop 32 = [] ∨ (r.dropWhile isPySpace).drop 32 = [ '\n' ]) := by
  simp only [hexTailMatch]
  simp [List.all_eq_true, and_assoc]

theorem hexTailMatch_length (r : PyStr) (h : hexTailMatch r = true) : 33 ≤ r.length := by
  obtain ⟨h1, h2, _, _⟩ := (hexTailMatch_iff r).mp h
  have := congrArg List.length (List.takeWhile_append_dropWhile (p := isPySpace) (l := r))
  rw [List.length_append] at this
  have h1' : 1 ≤ (r.takeWhile isPySpace).length := by
    cases hx : r.takeWhile isPySpace with
    | nil => exact absurd hx h1
    | cons a b => simp
  omega

theorem nameGroupScan_short : ∀ (f : PyStr), f.length ≤ 32 → ∀ acc,
    nameGroupScan acc f = none := by
  intro f
  induction f with
  | nil => intro _ acc; rfl
  | cons c cs ih =>
    intro hlen acc
    simp only [nameGroupScan]
    by_cases hc : c = '\n'
    · simp [hc]
    · rw [if_neg hc]
      have hm : hexTailMatch cs = false := by
        by_contra hcon
        simp only [Bool.not_eq_false] at hcon
        have := hexTailMatch_length cs hcon
        rw [List.length_cons] at hlen
        omega
      rw [hm]
      simp only [Bool.false_eq_true, if_false]
      exact ih (by rw [List.length_cons] at hlen; omega) (acc ++ [c])

theorem idSearchScan_short : ∀ (f : PyStr), f.length < 32 → idSearchScan f = none := by
  intro f
  induction f with
  | nil => intro _; rfl
  | cons c cs ih =>
    intro hlen
    simp only [idSearchScan]
    have hm : hexHereMatch (c :: cs) = false := by
      by_contra hcon
      simp only [Bool.not_eq_false] at hcon
      have := ((hexHereMatch_iff _).mp hcon).1
      omega
    rw [hm]
    simp only [Bool.false_eq_true, if_false]
    exact ih (by rw [List.length_cons] at hlen; omega)

theorem last_not_space_of_rstrip_eq (s : PyStr) (h : rstrip s = s) (w : Char)
    (hw : s.getLast? = some w) : isPySpace w = false := by
  by_contra hcon
  simp only [Bool.not_eq_false] at hcon
  have hrev : s.reverse.head? = some w := by
    rw [List.head?_reverse]
    exact hw
  cases hx : s.reverse with
  | nil => rw [hx] at hrev; cases hrev
  | cons a t =>
    rw [hx] at hrev
    simp only [List.head?_cons, Option.some.injEq] at hrev
    subst hrev
    have hlen : (rstrip s).length ≤ t.length := by
      rw [rstrip, hx, List.dropWhile_cons, if_pos hcon]
      calc (t.dropWhile isPySpace).reverse.length
          = (t.dropWhile isPySpace).length := List.length_reverse _
        _ ≤ t.length := (List.dropWhile_suffix _).length_le
    have hslen : s.length = t.length + 1 := by
      have := congrArg List.length hx
      simpa using this
    rw [h] at hlen
    omega

theorem hexTailMatch_sep_tok (sep tok : PyStr) (hsep : sep ≠ [])
    (hsepws : ∀ c ∈ sep, isPySpace c) (htl : tok.length = 32)
    (hhex : ∀ c ∈ tok, isHexLower c) :
    hexTailMatch (sep ++ tok) = true := by
  have hdropsep : List.dropWhile isPySpace sep = [] :=
    List.dropWhile_eq_nil_iff.mpr hsepws
  have hdroptok : List.dropWhile isPySpace tok = tok := by
    cases htok : tok with
    | nil => rfl
    | cons a b =>
      have hans : isPySpace a = false :=
        hex_not_space a (hhex a (htok ▸ List.mem_cons_self a b))
      rw [List.dropWhile_cons, if_neg (fun hcontra => Bool.noConfusion (hans ▸ hcontra))]
  have hdrop : List.dropWhile isPySpace (sep ++ tok) = tok := by
    rw [List.dropWhile_append, hdropsep]
    simpa using hdroptok
  rw [hexTailMatch_iff, hdrop]
  refine ⟨?_, by omega, fun c hc => hhex c (List.take_subset _ _ hc),
    Or.inl (by simp [htl])⟩
  cases hs : sep with
  | nil => exact absurd hs hsep
  | cons a b =>
    rw [List.cons_append, List.takeWhile_cons, if_pos (hsepws a (hs ▸ List.mem_cons_self a b))]
    simp

theorem mem_of_getLast?_eq (l : PyStr) (w : Char) (hw : l.getLast? = some w) : w ∈ l := by
  have hne : l ≠ [] := by
    intro h
    rw [h] at hw
    cases hw
  rw [List.getLast?_eq_getLast l hne, Option.some.injEq] at hw
  exact hw ▸ List.getLast_mem hne

theorem dropWhile_ne_nil_of_last (s : PyStr) (w : Char)
    (hw : s.getLast? = some w) (hwns : isPySpace w = false) :
    List.dropWhile isPySpace s ≠ [] := by
  intro hdrop
  have hall := List.dropWhile_eq_nil_iff.mp hdrop
  rw [hall w (mem_of_getLast?_eq s w hw)] at hwns
  cases hwns

theorem getLast?_cons_of_ne_nil (c : Char) (l : PyStr) (h : l ≠ []) :
    (c :: l).getLast? = l.getLast? := by
  cases l with
  | nil => exact absurd rfl h
  | cons a b => rw [List.getLast?_cons_cons]

theorem hexTailMatch_long_false (rest sep tok : PyStr)
    (hrest : List.dropWhile isPySpace rest ≠ [])
    (hsepne : sep ≠ []) (htl : tok.length = 32) :
    hexTailMatch (rest ++ sep ++ tok) = false := by
  by_contra hcon
  simp only [Bool.not_eq_false] at hcon
  obtain ⟨_, _, _, hend⟩ := (hexTailMatch_iff _).mp hcon
  have hdrop : List.dropWhile isPySpace (rest ++ sep ++ tok)
      = List.dropWhile isPySpace rest ++ (sep ++ tok) := by
    rw [List.append_assoc, List.dropWhile_append,
      if_neg (fun hh => hrest (List.isEmpty_iff.mp hh))]
  have h1 : 1 ≤ (List.dropWhile isPySpace rest).length := by
    cases hx : List.dropWhile isPySpace rest with
    | nil => exact absurd hx hrest
    | cons a b => simp
  have h2 : 1 ≤ sep.length := by
    cases hx : sep with
    | nil => exact absurd hx hsepne
    | cons a b => simp
  have hlen : 34 ≤ (List.dropWhile isPySpace (rest ++ sep ++ tok)).length := by
    rw [hdrop, List.length_append, List.length_append]
    omega
  rcases hend with hend | hend
  · have h1 := congrArg List.length hend
    rw [List.length_drop] at h1
    simp only [List.length_nil, List.length_cons] at h1
    omega
  · have h1 := congrArg List.length hend
    rw [List.length_drop] at h1
    simp only [List.length_nil, List.length_cons] at h1
    omega

theorem nameGroupScan_finds : ∀ (name : PyStr), ∀ (acc sep tok : PyStr),
    name ≠ [] → '\n' ∉ name →
    (∀ w, name.getLast? = some w → isPySpace w = false) →
    sep ≠ [] → (∀ c ∈ sep, isPySpace c) →
    tok.length = 32 → (∀ c ∈ tok, isHexLower c) →
    nameGroupScan acc (name ++ sep ++ tok) = some (acc ++ name) := by
  intro name
  induction name with
  | nil => intro acc sep tok h _ _ _ _ _ _; cases h rfl
  | cons c name' ih =>
    intro acc sep tok _ hnl hlast hsep hsepws htl hhex
    simp only [List.cons_append, nameGroupScan]
    have hc : ¬ c = '\n' := fun h => hnl (h ▸ List.mem_cons_self c name')
    rw [if_neg hc]
    simp only [List.append_eq]
    by_cases hname' : name' = []
    · subst hname'
      simp only [List.nil_append]
      rw [hexTailMatch_sep_tok sep tok hsep hsepws htl hhex]
      simp
    · have hlast' : ∀ w, name'.getLast? = some w → isPySpace w = false := fun w hw =>
        hlast w (by rw [getLast?_cons_of_ne_nil c name' hname']; exact hw)
      obtain ⟨wl, hwl⟩ := Option.isSome_iff_exists.mp (List.getLast?_isSome.mpr hname')
      have hrest : List.dropWhile isPySpace name' ≠ [] :=
        dropWhile_ne_nil_of_last name' wl hwl (hlast' wl hwl)
      rw [hexTailMatch_long_false name' sep tok hrest hsep htl]
      simp only [Bool.false_eq_true, if_false]
      rw [ih (acc ++ [c]) sep tok hname'
        (fun hmem => hnl (List.mem_cons_of_mem c hmem)) hlast' hsep hsepws htl hhex]
      simp

theorem hexHereMatch_false_long (c : Char) (pre tok : PyStr) (htl : tok.length = 32)
    (hhex : ∀ x ∈ tok, isHexLower x) :
    hexHereMatch (c :: (pre ++ tok)) = false := by
  by_contra hcon
  simp only [Bool.not_eq_false] at hcon
  obtain ⟨_, _, hend⟩ := (hexHereMatch_iff _).mp hcon
  rcases hend with hend | hend
  · have h1 := congrArg List.length hend
    rw [List.length_drop] at h1
    simp only [List.length_nil, List.length_cons, List.length_append] at h1
    omega
  · have h1 := congrArg List.length hend
    rw [List.length_drop] at h1
    simp only [List.length_nil, List.length_cons, List.length_append] at h1
    have hpre : pre = [] := List.eq_nil_of_length_eq_zero (by omega)
    subst hpre
    simp only [List.nil_append] at hend
    have hdrop : List.drop 32 (c :: tok) = List.drop 31 tok := rfl
    rw [hdrop] at hend
    have hmem : '\n' ∈ tok := List.drop_subset 31 tok (hend ▸ List.mem_cons_self '\n' [])
    exact absurd (hhex '\n' hmem) (by decide)

theorem idSearchScan_finds : ∀ (pre tok : PyStr), tok.length = 32 →
    (∀ c ∈ tok, isHexLower c) → idSearchScan (pre ++ tok) = some tok := by
  intro pre
  induction pre with
  | nil =>
    intro tok htl hhex
    cases htok2 : tok with
    | nil => rw [htok2] at htl; cases htl
    | cons a b =>
      rw [← htok2, List.nil_append]
      have hne : tok ≠ [] := by rw [htok2]; simp
      have hmatch : hexHereMatch tok = true := by
        rw [hexHereMatch_iff]
        refine ⟨by omega, fun x hx => hhex x (List.take_subset _ _ hx), Or.inl ?_⟩
        rw [← htl, List.drop_length]
      cases htok3 : tok with
      | nil => exact absurd htok3 hne
      | cons a2 b2 =>
        rw [← htok3, show idSearchScan tok
            = if hexHereMatch tok = true then some (tok.take 32) else idSearchScan b2 from by
          rw [htok3]; rfl]
        rw [if_pos hmatch, ← htl, List.take_length]
  | cons c pre' ih =>
    intro tok htl hhex
    simp only [List.cons_append, idSearchScan, List.append_eq]
    rw [hexHereMatch_false_long c pre' tok htl hhex]
    simp only [Bool.false_eq_true, if_false]
    exact ih tok htl hhex

theorem hexHereMatch_decomp (r : PyStr) (h : hexHereMatch r = true) :
    ∃ tok : PyStr, tok.length = 32 ∧ (∀ c ∈ tok, isHexLower c) ∧
      (r = tok ∨ r = tok ++ [ '\n' ]) := by
  obtain ⟨h1, h2, h3⟩ := (hexHereMatch_iff r).mp h
  refine ⟨r.take 32, ?_, h2, ?_⟩
  · rw [List.length_take]
    omega
  · rcases h3 with h3 | h3
    · left
      conv_lhs => rw [← List.take_append_drop 32 r]
      rw [h3, List.append_nil]
    · right
      conv_lhs => rw [← List.take_append_drop 32 r]
      rw [h3]

theorem idSearchScan_decomp : ∀ (f tok : PyStr), idSearchScan f = some tok →
    ∃ pre tok2 : PyStr, tok2.length = 32 ∧ (∀ c ∈ tok2, isHexLower c) ∧
      (f = pre ++ tok2 ∨ f = pre ++ tok2 ++ [ '\n' ]) := by
  intro f
  induction f with
  | nil => intro tok h; simp [idSearchScan] at h
  | cons c cs ih =>
    intro tok h
    simp only [idSearchScan] at h
    by_cases hm : hexHereMatch (c :: cs) = true
    · obtain ⟨tok2, hlen, hhex, hcase⟩ := hexHereMatch_decomp _ hm
      refine ⟨[], tok2, hlen, hhex, ?_⟩
      rcases hcase with hc | hc
      · exact Or.inl (by rw [List.nil_append]; exact hc)
      · exact Or.inr (by rw [List.nil_append]; exact hc)
    · rw [if_neg hm] at h
      obtain ⟨pre, tok2, hlen, hhex, hcase⟩ := ih tok h
      refine ⟨c :: pre, tok2, hlen, hhex, ?_⟩
      rcases hcase with hc | hc
      · exact Or.inl (by rw [List.cons_append, hc])
      · exact Or.inr (by rw [List.cons_append, List.cons_append, hc])

theorem nameGroupScan_decomp : ∀ (f acc g : PyStr), nameGroupScan acc f = some g →
    ∃ pre tok : PyStr, tok.length = 32 ∧ (∀ c ∈ tok, isHexLower c) ∧
      (f = pre ++ tok ∨ f = pre ++ tok ++ [ '\n' ]) := by
  intro f
  induction f with
  | nil => intro acc g h; simp [nameGroupScan] at h
  | cons c cs ih =>
    intro acc g h
    simp only [nameGroupScan] at h
    by_cases hc : c = '\n'
    · rw [if_pos hc] at h
      exact absurd h (by simp)
    · rw [if_neg hc] at h
      by_cases ht : hexTailMatch cs = true
      · obtain ⟨h1, h2, h3, h4⟩ := (hexTailMatch_iff cs).mp ht
        have hsplit : cs = cs.takeWhile isPySpace ++ cs.dropWhile isPySpace :=
          (List.takeWhile_append_dropWhile _ _).symm
        have hlen : (List.take 32 (cs.dropWhile isPySpace)).length = 32 := by
          rw [List.length_take]
          omega
        have hrest : cs.dropWhile isPySpace
            = List.take 32 (cs.dropWhile isPySpace)
              ++ List.drop 32 (cs.dropWhile isPySpace) :=
          (List.take_append_drop _ _).symm
        rcases h4 with h4 | h4
        · refine ⟨c :: cs.takeWhile isPySpace, List.take 32 (cs.dropWhile isPySpace),
            hlen, h3, Or.inl ?_⟩
          rw [List.cons_append]
          nth_rewrite 1 [hsplit]
          nth_rewrite 1 [hrest]
          rw [h4, List.append_nil]
        · refine ⟨c :: cs.takeWhile isPySpace, List.take 32 (cs.dropWhile isPySpace),
            hlen, h3, Or.inr ?_⟩
          rw [List.cons_append, List.cons_append]
          nth_rewrite 1 [hsplit]
          nth_rewrite 1 [hrest]
          rw [h4, ← List.append_assoc]
      · rw [if_neg ht] at h
        obtain ⟨pre, tok, hlen, hhex, hcase⟩ := ih (acc ++ [c]) g h
        refine ⟨c :: pre, tok, hlen, hhex, ?_⟩
        rcases hcase with hcc | hcc
        · exact Or.inl (by rw [List.cons_append, hcc])
        · exact Or.inr (by rw [List.cons_append, List.cons_append, hcc])

/-- C6, counterexample: `_extract_id_from_filename` does not require the
whitespace run before the token.  On a filename that does not end in
whitespace followed by a 32-hex token, the trailing token is still returned
(while the name side is left untouched), rather than an id synthesized from
the name as the claim states. -/
theorem c6_id_without_whitespace_counterexample :
    extract_id_from_filename c6Input = List.replicate 32 'a' ∧
    extract_name_from_filename c6Input = c6Input ∧
    List.replicate 32 'a' ≠ synthesizeId c6Input := by
  refine ⟨by decide, by decide, by decide⟩

/-- C6, amended: name extraction strips a trailing `whitespace + 32-hex`
suffix (requiring the whitespace); id extraction requires only the token at
the very end, with or without whitespace before it; and every string that
does not end in a 32-hex token — directly at the end or just before a
single trailing newline, so in particular any string whose hex-looking
substrings sit anywhere else — is left untouched on the name side, with the
id synthesized from it. -/
theorem c6_extract_spec :
    (∀ name sep tok : PyStr, name ≠ [] → '\n' ∉ name → pstrip name = name →
      sep ≠ [] → (∀ c ∈ sep, isPySpace c) → tok.length = 32 →
      (∀ c ∈ tok, isHexLower c) →
      extract_name_from_filename (name ++ sep ++ tok) = name ∧
      extract_id_from_filename (name ++ sep ++ tok) = tok) ∧
    (∀ pre tok : PyStr, tok.length = 32 → (∀ c ∈ tok, isHexLower c) →
      extract_id_from_filename (pre ++ tok) = tok) ∧
    (∀ f : PyStr,
      (¬ ∃ pre tok : PyStr, tok.length = 32 ∧ (∀ c ∈ tok, isHexLower c) ∧
        (f = pre ++ tok ∨ f = pre ++ tok ++ [ '\n' ])) →
      extract_name_from_filename f = f ∧
      extract_id_from_filename f = synthesizeId f) := by
  refine ⟨?_, ?_, ?_⟩
  · intro name sep tok hne hnl htrim hsep hsepws htl hhex
    have hlast : ∀ w, name.getLast? = some w → isPySpace w = false := fun w hw =>
      last_not_space_of_rstrip_eq name (trimmed_parts name htrim).2 w hw
    constructor
    · simp only [extract_name_from_filename,
        nameGroupScan_finds name [] sep tok hne hnl hlast hsep hsepws htl hhex]
      simp [htrim]
    · simp only [extract_id_from_filename, idSearchScan_finds (name ++ sep) tok htl hhex]
  · intro pre tok htl hhex
    simp only [extract_id_from_filename, idSearchScan_finds pre tok htl hhex]
  · intro f hno
    have hid : idSearchScan f = none := by
      cases hx : idSearchScan f with
      | none => rfl
      | some tok => exact absurd (idSearchScan_decomp f tok hx) hno
    have hnm : nameGroupScan [] f = none := by
      cases hx : nameGroupScan [] f with
      | none => rfl
      | some g => exact absurd (nameGroupScan_decomp f [] g hx) hno
    exact ⟨by simp only [extract_name_from_filename, hnm],
      by simp only [extract_id_from_filename, hid]⟩

/-- C6 witness: the spec's two examples with a concrete 32-hex token, plus
an anchoring instance — a 33-character string whose 32-hex run is not at
the end is left untouched with the id synthesized. -/
theorem c6_extract_spec_witness :
    (extract_name_from_filename (str "Page Name" ++ str " " ++ List.replicate 32 'a')
        = str "Page Name" ∧
      extract_id_from_filename (str "Page Name" ++ str " " ++ List.replicate 32 'a')
        = List.replicate 32 'a') ∧
    (extract_name_from_filename (str "Page Name") = str "Page Name" ∧
      extract_id_from_filename (str "Page Name") = synthesizeId (str "Page Name")) ∧
    (extract_name_from_filename (List.replicate 32 'a' ++ [ 'x' ])
        = List.replicate 32 'a' ++ [ 'x' ] ∧
      extract_id_from_filename (List.replicate 32 'a' ++ [ 'x' ])
        = synthesizeId (List.replicate 32 'a' ++ [ 'x' ])) :=
  have hno1 : ¬ ∃ pre tok : PyStr, tok.length = 32 ∧ (∀ c ∈ tok, isHexLower c) ∧
      (str "Page Name" = pre ++ tok ∨ str "Page Name" = pre ++ tok ++ [ '\n' ]) := by
    rintro ⟨pre, tok, hlen, _, hc | hc⟩
    · have hl := congrArg List.length hc
      rw [show (str "Page Name").length = 9 from rfl] at hl
      simp only [List.length_append, hlen] at hl
      omega
    · have hl := congrArg List.length hc
      rw [show (str "Page Name").length = 9 from rfl] at hl
      simp only [List.length_append, List.length_cons, List.length_nil, hlen] at hl
      omega
  have hno2 : ¬ ∃ pre tok : PyStr, tok.length = 32 ∧ (∀ c ∈ tok, isHexLower c) ∧
      (List.replicate 32 'a' ++ [ 'x' ] = pre ++ tok ∨
        List.replicate 32 'a' ++ [ 'x' ] = pre ++ tok ++ [ '\n' ]) := by
    rintro ⟨pre, tok, hlen, hhex, hc | hc⟩
    · have hl := congrArg List.length hc
      rw [show (List.replicate 32 'a' ++ ([ 'x' ] : PyStr)).length = 33 from rfl] at hl
      simp only [List.length_append, hlen] at hl
      have hp1 : pre.length = 1 := by omega
      have htok : tok = (List.replicate 32 'a' ++ ([ 'x' ] : PyStr)).drop 1 := by
        have hdl := (List.drop_left pre tok).symm
        rw [← hc, hp1] at hdl
        exact hdl
      have hxm : 'x' ∈ tok := by
        rw [htok]
        decide
      exact absurd (hhex 'x' hxm) (by decide)
    · have hl := congrArg List.length hc
      rw [show (List.replicate 32 'a' ++ ([ 'x' ] : PyStr)).length = 33 from rfl] at hl
      simp only [List.length_append, List.length_cons, List.length_nil, hlen] at hl
      have hp0 : pre = [] := List.eq_nil_of_length_eq_zero (by omega)
      subst hp0
      simp only [List.nil_append] at hc
      have hdrop : (List.replicate 32 'a' ++ ([ 'x' ] : PyStr)).drop 32 = [ '\n' ] := by
        rw [hc, show (32 : Nat) = tok.length from hlen.symm, List.drop_left]
      exact absurd hdrop (by decide)
  ⟨c6_extract_spec.1 (str "Page Name") (str " ") (List.replicate 32 'a')
      (by decide) (by decide) (by decide) (by decide) (by decide) (by decide) (by decide),
   c6_extract_spec.2.2 (str "Page Name") hno1,
   c6_extract_spec.2.2 (List.replicate 32 'a' ++ [ 'x' ]) hno2⟩

/-! ### C7 / C10: property extraction -/

theorem upper_not_space (c : Char) (h : c.isUpper = true) : isPySpace c = false := by
  by_contra hcon
  simp only [Bool.not_eq_false] at hcon
  simp only [isPySpace, Bool.or_eq_true, decide_eq_true_eq] at hcon
  rcases hcon with ((((hc | hc) | hc) | hc) | hc) | hc <;> subst hc <;>
    exact absurd h (by decide)

theorem takeWhile_append_stop (p : Char → Bool) :
    ∀ (a : PyStr) (c : Char) (b : PyStr), (∀ x ∈ a, p x = true) → p c = false →
    (a ++ c :: b).takeWhile p = a := by
  intro a
  induction a with
  | nil =>
    intro c b _ hc
    simp only [List.nil_append, List.takeWhile_cons, hc]
    rfl
  | cons x xs ih =>
    intro c b ha hc
    rw [List.cons_append, List.takeWhile_cons, if_pos (ha x (List.mem_cons_self x xs))]
    rw [ih c b (fun y hy => ha y (List.mem_cons_of_mem x hy)) hc]

theorem takeWhile_space_trimmed (v : PyStr) (hl : lstrip v = v) (hv : v ≠ []) :
    v.takeWhile isPySpace = [] := by
  cases hc : v with
  | nil => exact absurd hc hv
  | cons c t =>
    have hns : isPySpace c = false := lstrip_head_not_space v c t (by rw [hl, hc])
    rw [List.takeWhile_cons, if_neg (fun hcontra => Bool.noConfusion (hns ▸ hcontra))]

theorem propLine_ne_nil (kv : PyStr × PyStr) : propLine kv ≠ [] := by
  simp [propLine]

theorem matchProp_propLine (k v : PyStr) (hk2 : 2 ≤ k.length)
    (hup : (k.headD 'A').isUpper = true) (hkc : ∀ x ∈ k.tail, isKeyChar x = true)
    (hktrim : pstrip k = k) (hvne : v ≠ []) (hvtrim : pstrip v = v) :
    matchProp (propLine (k, v)) = some (k, v) := by
  cases k with
  | nil => simp only [List.length_nil] at hk2; omega
  | cons c kt =>
    have hup' : c.isUpper = true := by simpa using hup
    have hktne : kt ≠ [] := by
      simp only [List.length_cons] at hk2
      intro hx
      rw [hx] at hk2
      simp at hk2
    have hg1 : (kt ++ ':' :: ' ' :: v).takeWhile isKeyChar = kt :=
      takeWhile_append_stop isKeyChar kt ':' (' ' :: v) (by simpa using hkc) (by decide)
    have hdrop : (kt ++ ':' :: ' ' :: v).drop kt.length = ':' :: ' ' :: v :=
      List.drop_left kt _
    have hsp : (' ' :: v).takeWhile isPySpace = [' '] := by
      rw [List.takeWhile_cons, if_pos (by decide)]
      rw [takeWhile_space_trimmed v (trimmed_parts v hvtrim).1 hvne]
    simp only [propLine, List.cons_append, matchProp]
    rw [if_pos hup', hg1]
    rw [if_neg (fun hcontra => hktne hcontra), hdrop]
    show (if ':' = ':' then
        if List.takeWhile isPySpace (' ' :: v) = [] then none
        else
          if List.drop (List.takeWhile isPySpace (' ' :: v)).length (' ' :: v) ≠ [] then
            some (pstrip (c :: kt),
              pstrip (List.drop (List.takeWhile isPySpace (' ' :: v)).length (' ' :: v)))
          else if 2 ≤ (List.takeWhile isPySpace (' ' :: v)).length then
            some (pstrip (c :: kt), [])
          else none
      else none) = some (c :: kt, v)
    rw [if_pos rfl, hsp]
    have hdv : List.drop (List.length ([' '] : PyStr)) (' ' :: v) = v := rfl
    rw [hdv]
    rw [if_neg (by simp : ¬ ([' '] : PyStr) = []), if_pos hvne]
    rw [hktrim, hvtrim]

theorem pstrip_propLine (k v : PyStr) (hk1 : k ≠ [])
    (hup : (k.headD 'A').isUpper = true) (hvne : v ≠ []) (hvtrim : pstrip v = v) :
    pstrip (propLine (k, v)) = propLine (k, v) := by
  cases k with
  | nil => exact absurd rfl hk1
  | cons c kt =>
    have hcns : isPySpace c = false := upper_not_space c (by simpa using hup)
    have hrv : rstrip v = v := (trimmed_parts v hvtrim).2
    have hrvne : rstrip v ≠ [] := by rw [hrv]; exact hvne
    have hshape : propLine ((c :: kt : PyStr), v) = c :: (kt ++ [':', ' '] ++ v) := by
      simp [propLine]
    rw [hshape]
    simp only [pstrip]
    rw [lstrip_cons_of_not_space c _ hcns]
    rw [show c :: (kt ++ [':', ' '] ++ v) = (c :: (kt ++ [':', ' '])) ++ v from by simp]
    rw [rstrip_append_of_ne_nil _ v hrvne, hrv]

theorem propScan_propLines : ∀ (pls : List (PyStr × PyStr)), pls ≠ [] →
    ∀ (i fuel : Nat) (props : List (PyStr × PyStr)) (rem : List PyStr) (e start : Nat),
    (∀ kv ∈ pls, 2 ≤ kv.1.length ∧ (kv.1.headD 'A').isUpper = true ∧
      (∀ x ∈ kv.1.tail, isKeyChar x = true) ∧ pstrip kv.1 = kv.1 ∧
      kv.2 ≠ [] ∧ pstrip kv.2 = kv.2) →
    pls.length ≤ fuel →
    propScan start (pls.map propLine ++ rem) i fuel props e =
    propScan start rem (i + pls.length) (fuel - pls.length)
      (pls.foldl (fun ps kv => dictInsert kv.1 kv.2 ps) props) (i + pls.length) := by
  intro pls
  induction pls with
  | nil => intro h; exact absurd rfl h
  | cons kv pls' ih =>
    intro _ i fuel props rem e start hgood hfuel
    obtain ⟨k, v⟩ := kv
    obtain ⟨hk2, hup, hkc, hktrim, hvne, hvtrim⟩ :=
      hgood (k, v) (List.mem_cons_self (k, v) pls')
    cases fuel with
    | zero => simp only [List.length_cons] at hfuel; omega
    | succ f =>
      have hk1 : k ≠ [] := by
        intro hx
        rw [hx] at hk2
        simp at hk2
      have hline : pstrip (propLine (k, v)) = propLine (k, v) :=
        pstrip_propLine k v hk1 hup hvne hvtrim
      have hlne : ¬ (propLine (k, v) = []) := propLine_ne_nil (k, v)
      have hmp : matchProp (propLine (k, v)) = some (k, v) :=
        matchProp_propLine k v hk2 hup hkc hktrim hvne hvtrim
      simp only [List.map_cons, List.cons_append, propScan, hline, hmp, if_neg hlne,
        List.append_eq]
      by_cases hpe : pls' = []
      · subst hpe
        simp [Nat.add_sub_cancel]
      · rw [ih hpe (i + 1) f (dictInsert k v props) rem (i + 1) start
          (fun kw hkw => hgood kw (List.mem_cons_of_mem (k, v) hkw))
          (by simp only [List.length_cons] at hfuel; omega)]
        simp only [List.length_cons, List.foldl_cons]
        have e1 : i + 1 + pls'.length = i + (pls'.length + 1) := by omega
        have e2 : f - pls'.length = f + 1 - (pls'.length + 1) := by omega
        rw [e1, e2]

theorem propScan_blank_stop (start i f : Nat) (props : List (PyStr × PyStr))
    (l : PyStr) (rem : List PyStr) (hl : pstrip l = []) (hlt : start < i) :
    propScan start (l :: rem) i (f + 1) props i = (props, i + 1) := by
  simp [propScan, hl, hlt]

theorem propScan_nonmatch_stop (start i f : Nat) (props : List (PyStr × PyStr))
    (l : PyStr) (rem : List PyStr) (hl : ¬ (pstrip l = []))
    (hm : matchProp (pstrip l) = none) (hlt : start < i) :
    propScan start (l :: rem) i (f + 1) props i = (props, i) := by
  simp [propScan, hl, hm, hlt]

theorem propScan_junk : ∀ (junk : List PyStr) (i fuel : Nat)
    (props : List (PyStr × PyStr)) (rem : List PyStr) (start : Nat),
    (∀ l ∈ junk, matchProp (pstrip l) = none) →
    junk.length ≤ fuel →
    propScan start (junk ++ rem) i fuel props start =
    propScan start rem (i + junk.length) (fuel - junk.length) props start := by
  intro junk
  induction junk with
  | nil => intro i fuel props rem start _ _; simp
  | cons l junk' ih =>
    intro i fuel props rem start hj hfuel
    cases fuel with
    | zero => simp only [List.length_cons] at hfuel; omega
    | succ f =>
      have hml : matchProp (pstrip l) = none := hj l (List.mem_cons_self l junk')
      have hstep : propScan start ((l :: junk') ++ rem) i (f + 1) props start =
          propScan start (junk' ++ rem) (i + 1) f props start := by
        by_cases hbl : pstrip l = []
        · simp [propScan, hbl, Nat.lt_irrefl]
        · simp [propScan, hbl, hml, Nat.lt_irrefl]
      rw [hstep, ih (i + 1) f props rem start
        (fun w hw => hj w (List.mem_cons_of_mem l hw))
        (by simp only [List.length_cons] at hfuel; omega)]
      have e1 : i + 1 + junk'.length = i + (junk'.length + 1) := by omega
      have e2 : f - junk'.length = f + 1 - (junk'.length + 1) := by omega
      rw [e1, e2]
      simp only [List.length_cons]

theorem dictInsert_not_mem_append {α β : Type} [DecidableEq α] (k : α) (v : β) :
    ∀ d : List (α × β), k ∉ d.map Prod.fst → dictInsert k v d = d ++ [(k, v)] := by
  intro d
  induction d with
  | nil => intro _; rfl
  | cons e rest ih =>
    obtain ⟨k0, v0⟩ := e
    intro h
    simp only [List.map_cons, List.mem_cons] at h
    push_neg at h
    simp only [dictInsert, if_neg (fun hx : k0 = k => h.1 hx.symm), List.cons_append]
    rw [ih h.2]

theorem foldl_dictInsert_nodup {α β : Type} [DecidableEq α] :
    ∀ (kvs d : List (α × β)),
    ((d ++ kvs).map Prod.fst).Nodup →
    kvs.foldl (fun ps kv => dictInsert kv.1 kv.2 ps) d = d ++ kvs := by
  intro kvs
  induction kvs with
  | nil => intro d _; simp
  | cons kv kvs' ih =>
    intro d hnd
    obtain ⟨k, v⟩ := kv
    simp only [List.foldl_cons]
    have hnd' : (d.map Prod.fst ++ k :: kvs'.map Prod.fst).Nodup := by
      simpa using hnd
    have hknotin : k ∉ d.map Prod.fst := by
      rcases List.nodup_append.mp hnd' with ⟨_, _, hdisj⟩
      exact fun hk => hdisj hk (List.mem_cons_self k _)
    rw [dictInsert_not_mem_append k v d hknotin]
    rw [ih (d ++ [(k, v)]) (by simpa using hnd)]
    simp

theorem extract_properties_eval (title : PyStr) (body : List PyStr)
    (htne : title ≠ []) (httrim : pstrip title = title) (htnl : '\n' ∉ title)
    (hbnl : ∀ l ∈ body, '\n' ∉ l) :
    extract_properties (joinLines ((str "# " ++ title) :: [] :: body)) [] =
    (pstrip (joinLines (((str "# " ++ title) :: [] :: body).drop
        (propScan 2 body 2 20 [] 2).2)),
     (propScan 2 body 2 20 [] 2).1) := by
  have hsplit : splitLines (joinLines ((str "# " ++ title) :: [] :: body)) =
      (str "# " ++ title) :: [] :: body := by
    refine splitLines_joinLines _ (by simp) ?_
    intro l hl
    rcases List.mem_cons.mp hl with h | h
    · subst h
      intro hmem
      rcases List.mem_append.mp hmem with h2 | h2
      · exact absurd h2 (by decide)
      · exact htnl h2
    · rcases List.mem_cons.mp h with h2 | h2
      · subst h2; simp
      · exact hbnl l h2
  have hps0 : pstrip (str "# " ++ title) = str "# " ++ title := by
    have hrt : rstrip title = title := (trimmed_parts title httrim).2
    have hrtne : rstrip title ≠ [] := by rw [hrt]; exact htne
    simp only [pstrip]
    rw [show str "# " ++ title = '#' :: (' ' :: title) from rfl]
    rw [lstrip_cons_of_not_space '#' _ (by decide)]
    rw [show '#' :: (' ' :: title) = (['#', ' '] : PyStr) ++ title from rfl]
    rw [rstrip_append_of_ne_nil _ title hrtne, hrt]
  have hpre : List.isPrefixOf (str "# ")
      (pstrip (((str "# " ++ title) :: [] :: body).headD [])) = true := by
    simp only [List.headD_cons]
    rw [hps0, List.isPrefixOf_iff_prefix]
    exact ⟨title, rfl⟩
  simp only [extract_properties, hsplit]
  have hif1 : (if ((str "# " ++ title) :: [] :: body ≠ [] ∧
      List.isPrefixOf (str "# ") (pstrip (((str "# " ++ title) :: [] :: body).headD []))
        = true)
      then 1 else 0) = 1 := if_pos ⟨by simp, hpre⟩
  rw [hif1]
  have hif2 : (if (1 < ((str "# " ++ title) :: [] :: body).length ∧
      pstrip ((((str "# " ++ title) :: [] :: body).drop 1).headD []) = [])
      then 1 + 1 else 1) = 2 := by
    rw [if_pos ⟨by simp only [List.length_cons]; omega, rfl⟩]
  rw [hif2]
  rfl

/-- C7: on a page body consisting of a level-1 title heading, a blank line,
`Key: value` property lines (key at least two characters, first uppercase,
rest letters and whitespace; value the nonempty stripped remainder after
the colon-space), and then either a blank line or a non-matching line
followed by the rest of the body — with at least one and at most 19
property lines (inside the 20-line window) and pairwise distinct keys —
`_extract_properties` records the captured pairs in order and removes the
heading and the captured lines: the retained content is everything after
the blank stopper (respectively from the non-matching stopper on),
stripped. -/
theorem c7_extract_properties_spec
    (title : PyStr) (kvs : List (PyStr × PyStr)) (stopper : PyStr) (rest : List PyStr)
    (htne : title ≠ []) (httrim : pstrip title = title) (htnl : '\n' ∉ title)
    (hgood : ∀ kv ∈ kvs,
      2 ≤ kv.1.length ∧ (kv.1.headD 'A').isUpper = true ∧
      (∀ x ∈ kv.1.tail, isKeyChar x = true) ∧ pstrip kv.1 = kv.1 ∧ '\n' ∉ kv.1 ∧
      kv.2 ≠ [] ∧ pstrip kv.2 = kv.2 ∧ '\n' ∉ kv.2)
    (hnodup : (kvs.map Prod.fst).Nodup)
    (hne : kvs ≠ []) (hlen : kvs.length ≤ 19)
    (hsnl : '\n' ∉ stopper) (hrnl : ∀ l ∈ rest, '\n' ∉ l) :
    (pstrip stopper = [] →
      extract_properties
        (joinLines ((str "# " ++ title) :: [] ::
          (kvs.map propLine ++ stopper :: rest))) []
        = (pstrip (joinLines rest), kvs)) ∧
    (pstrip stopper ≠ [] → matchProp (pstrip stopper) = none →
      extract_properties
        (joinLines ((str "# " ++ title) :: [] ::
          (kvs.map propLine ++ stopper :: rest))) []
        = (pstrip (joinLines (stopper :: rest)), kvs)) := by
  have hbnl : ∀ l ∈ kvs.map propLine ++ stopper :: rest, '\n' ∉ l := by
    intro l hl
    rcases List.mem_append.mp hl with h | h
    · obtain ⟨kv, hkv, rfl⟩ := List.mem_map.mp h
      obtain ⟨_, _, _, _, hknl, _, _, hvnl⟩ := hgood kv hkv
      intro hmem
      simp only [propLine, List.mem_append, List.mem_cons] at hmem
      rcases hmem with h2 | h2 | h2 | h2
      · exact hknl h2
      · exact absurd h2 (by decide)
      · exact absurd h2 (by decide)
      · exact hvnl h2
    · rcases List.mem_cons.mp h with h2 | h2
      · subst h2; exact hsnl
      · exact hrnl l h2
  have heval := extract_properties_eval title (kvs.map propLine ++ stopper :: rest)
    htne httrim htnl hbnl
  have hgood' : ∀ kv ∈ kvs, 2 ≤ kv.1.length ∧ (kv.1.headD 'A').isUpper = true ∧
      (∀ x ∈ kv.1.tail, isKeyChar x = true) ∧ pstrip kv.1 = kv.1 ∧
      kv.2 ≠ [] ∧ pstrip kv.2 = kv.2 := by
    intro kv hkv
    obtain ⟨h1, h2, h3, h4, _, h6, h7, _⟩ := hgood kv hkv
    exact ⟨h1, h2, h3, h4, h6, h7⟩
  have hscan := propScan_propLines kvs hne 2 20 [] (stopper :: rest) 2 2 hgood'
    (by omega)
  have hfold : kvs.foldl (fun ps kv => dictInsert kv.1 kv.2 ps) [] = kvs := by
    have := foldl_dictInsert_nodup kvs [] (by simpa using hnodup)
    simpa using this
  have hf : 20 - kvs.length = (19 - kvs.length) + 1 := by omega
  have hkpos : 0 < kvs.length := List.length_pos.mpr hne
  constructor
  · intro hblank
    have hstop := propScan_blank_stop 2 (2 + kvs.length) (19 - kvs.length) kvs stopper
      rest hblank (by omega)
    have hr : propScan 2 (kvs.map propLine ++ stopper :: rest) 2 20 [] 2
        = (kvs, 2 + kvs.length + 1) := by
      rw [hscan, hfold, hf]
      exact hstop
    have hdrop : ((str "# " ++ title) :: [] ::
        (kvs.map propLine ++ stopper :: rest)).drop (2 + kvs.length + 1) = rest := by
      rw [show 2 + kvs.length + 1 = 2 + (kvs.length + 1) from by omega]
      rw [← List.drop_drop]
      rw [show ((str "# " ++ title) :: [] ::
          (kvs.map propLine ++ stopper :: rest)).drop 2
          = kvs.map propLine ++ stopper :: rest from rfl]
      rw [← List.drop_drop]
      rw [show kvs.length = (kvs.map propLine).length from by simp]
      rw [List.drop_left]
      rfl
    rw [heval, hr]
    simp [hdrop]
  · intro hsne hsm
    have hstop := propScan_nonmatch_stop 2 (2 + kvs.length) (19 - kvs.length) kvs stopper
      rest hsne hsm (by omega)
    have hr : propScan 2 (kvs.map propLine ++ stopper :: rest) 2 20 [] 2
        = (kvs, 2 + kvs.length) := by
      rw [hscan, hfold, hf]
      exact hstop
    have hdrop : ((str "# " ++ title) :: [] ::
        (kvs.map propLine ++ stopper :: rest)).drop (2 + kvs.length)
        = stopper :: rest := by
      rw [← List.drop_drop]
      rw [show ((str "# " ++ title) :: [] ::
          (kvs.map propLine ++ stopper :: rest)).drop 2
          = kvs.map propLine ++ stopper :: rest from rfl]
      rw [show kvs.length = (kvs.map propLine).length from by simp]
      exact List.drop_left _ _
    rw [heval, hr]
    simp [hdrop]

/-- C7 witness: the spec's example body
`"# Title\n\nOwner: Alice\nStatus: Active\n\nBody text"` yields the
properties `Owner: Alice, Status: Active` in order and the remaining
content `"Body text"`. -/
theorem c7_extract_properties_spec_witness :
    extract_properties
      (joinLines ((str "# " ++ str "Title") :: [] ::
        ([(str "Owner", str "Alice"), (str "Status", str "Active")].map propLine ++
          [] :: [str "Body text"]))) []
      = (pstrip (joinLines [str "Body text"]),
          [(str "Owner", str "Alice"), (str "Status", str "Active")]) :=
  (c7_extract_properties_spec (str "Title")
    [(str "Owner", str "Alice"), (str "Status", str "Active")] [] [str "Body text"]
    (by decide) (by decide) (by decide) (by decide) (by decide) (by decide)
    (by decide) (by decide) (by decide)).1 rfl

/-- C10: non-empty lines inside the 20-line scan window that do not match
the property pattern and that precede the first captured property line are
removed from the retained body whenever property lines are captured after
them: the retained content starts after the blank line ending the property
block, so the intervening lines are silently deleted rather than
preserved. -/
theorem c10_junk_lines_deleted
    (title : PyStr) (junk : List PyStr) (kvs : List (PyStr × PyStr))
    (rest : List PyStr)
    (htne : title ≠ []) (httrim : pstrip title = title) (htnl : '\n' ∉ title)
    (hjunk : ∀ l ∈ junk, pstrip l ≠ [] ∧ matchProp (pstrip l) = none ∧ '\n' ∉ l)
    (hgood : ∀ kv ∈ kvs,
      2 ≤ kv.1.length ∧ (kv.1.headD 'A').isUpper = true ∧
      (∀ x ∈ kv.1.tail, isKeyChar x = true) ∧ pstrip kv.1 = kv.1 ∧ '\n' ∉ kv.1 ∧
      kv.2 ≠ [] ∧ pstrip kv.2 = kv.2 ∧ '\n' ∉ kv.2)
    (hnodup : (kvs.map Prod.fst).Nodup)
    (hne : kvs ≠ []) (hlen : junk.length + kvs.length ≤ 19)
    (hrnl : ∀ l ∈ rest, '\n' ∉ l) :
    extract_properties
      (joinLines ((str "# " ++ title) :: [] ::
        (junk ++ (kvs.map propLine ++ [] :: rest)))) []
      = (pstrip (joinLines rest), kvs) := by
  have hbnl : ∀ l ∈ junk ++ (kvs.map propLine ++ [] :: rest), '\n' ∉ l := by
    intro l hl
    simp only [List.mem_append, List.mem_cons] at hl
    rcases hl with h | h | h | h
    · exact (hjunk l h).2.2
    · obtain ⟨kv, hkv, rfl⟩ := List.mem_map.mp h
      obtain ⟨_, _, _, _, hknl, _, _, hvnl⟩ := hgood kv hkv
      intro hmem
      simp only [propLine, List.mem_append, List.mem_cons] at hmem
      rcases hmem with h2 | h2 | h2 | h2
      · exact hknl h2
      · exact absurd h2 (by decide)
      · exact absurd h2 (by decide)
      · exact hvnl h2
    · subst h; simp
    · exact hrnl l h
  have heval := extract_properties_eval title (junk ++ (kvs.map propLine ++ [] :: rest))
    htne httrim htnl hbnl
  have hgood2 : ∀ kv ∈ kvs, 2 ≤ kv.1.length ∧ (kv.1.headD 'A').isUpper = true ∧
      (∀ x ∈ kv.1.tail, isKeyChar x = true) ∧ pstrip kv.1 = kv.1 ∧
      kv.2 ≠ [] ∧ pstrip kv.2 = kv.2 := by
    intro kv hkv
    obtain ⟨h1, h2, h3, h4, _, h6, h7, _⟩ := hgood kv hkv
    exact ⟨h1, h2, h3, h4, h6, h7⟩
  have hkpos : 0 < kvs.length := List.length_pos.mpr hne
  have hscan1 : propScan 2 (junk ++ (kvs.map propLine ++ [] :: rest)) 2 20 [] 2
      = propScan 2 (kvs.map propLine ++ [] :: rest) (2 + junk.length)
        (20 - junk.length) [] 2 :=
    propScan_junk junk 2 20 [] (kvs.map propLine ++ [] :: rest) 2
      (fun l hl => (hjunk l hl).2.1) (by omega)
  have hscan2 := propScan_propLines kvs hne (2 + junk.length) (20 - junk.length) []
    ([] :: rest) 2 2 hgood2 (by omega)
  have hfold : kvs.foldl (fun ps kv => dictInsert kv.1 kv.2 ps) [] = kvs := by
    have := foldl_dictInsert_nodup kvs [] (by simpa using hnodup)
    simpa using this
  have hstop := propScan_blank_stop 2 (2 + junk.length + kvs.length)
    (19 - junk.length - kvs.length) kvs [] rest rfl (by omega)
  have hr : propScan 2 (junk ++ (kvs.map propLine ++ [] :: rest)) 2 20 [] 2
      = (kvs, 2 + junk.length + kvs.length + 1) := by
    rw [hscan1, hscan2, hfold]
    rw [show 20 - junk.length - kvs.length = (19 - junk.length - kvs.length) + 1
      from by omega]
    exact hstop
  have hdrop : ((str "# " ++ title) :: [] ::
      (junk ++ (kvs.map propLine ++ [] :: rest))).drop
      (2 + junk.length + kvs.length + 1) = rest := by
    rw [show 2 + junk.length + kvs.length + 1
        = 2 + (junk.length + (kvs.length + 1)) from by omega]
    rw [← List.drop_drop]
    rw [show ((str "# " ++ title) :: [] ::
        (junk ++ (kvs.map propLine ++ [] :: rest))).drop 2
        = junk ++ (kvs.map propLine ++ [] :: rest) from rfl]
    rw [← List.drop_drop]
    rw [List.drop_left]
    rw [← List.drop_drop]
    rw [show kvs.length = (kvs.map propLine).length from by simp]
    rw [List.drop_left]
    rfl
  rw [heval, hr]
  simp [hdrop]

/-- C10 witness: the body
`"# T\n\njunk line\nOwner: A\n\nBody"` yields the single property
`Owner: A` and content `"Body"` — the non-matching line before the
property is deleted. -/
theorem c10_junk_lines_deleted_witness :
    extract_properties
      (joinLines ((str "# " ++ str "T") :: [] ::
        ([str "junk line"] ++ ([(str "Owner", str "A")].map propLine ++
          [] :: [str "Body"])))) []
      = (pstrip (joinLines [str "Body"]), [(str "Owner", str "A")]) :=
  c10_junk_lines_deleted (str "T") [str "junk line"] [(str "Owner", str "A")]
    [str "Body"] (by decide) (by decide) (by decide) (by decide) (by decide)
    (by decide) (by decide) (by decide) (by decide)

/-! ### C1: the content-codec roundtrip -/

theorem parseBlocks_nil : parseBlocks [] = [] := by
  simp [parseBlocks]

theorem parseBlocks_blank (l : PyStr) (r : List PyStr) (h : pstrip l = []) :
    parseBlocks (l :: r) = parseBlocks r := by
  simp only [parseBlocks, if_pos h]

theorem process_nodes_nil : process_nodes [] = [] := by
  simp [process_nodes]

theorem process_nodes_cons (n : Node) (ns : List Node) :
    process_nodes (n :: ns) = process_one n ++ process_nodes ns := by
  simp [process_nodes]

theorem process_text (t : PyStr) : process_nodes [Node.text t []] = t := by
  simp [process_nodes, process_one, applyMarks]

theorem splitLines_cons_newline (x : PyStr) :
    splitLines ('\n' :: x) = [] :: splitLines x := by
  simp [splitLines]

theorem takePara_fst_mem : ∀ (ls : List PyStr) (l : PyStr),
    l ∈ (takePara ls).1 → l ∈ ls := by
  intro ls
  induction ls with
  | nil => intro l hl; simp [takePara] at hl
  | cons a as ih =>
    intro l hl
    simp only [takePara] at hl
    split at hl
    · rcases List.mem_cons.mp hl with h | h
      · exact h ▸ List.mem_cons_self a as
      · exact List.mem_cons_of_mem a (ih l h)
    · simp at hl

theorem takePara_snd_mem : ∀ (ls : List PyStr) (l : PyStr),
    l ∈ (takePara ls).2 → l ∈ ls := by
  intro ls
  induction ls with
  | nil => intro l hl; simp [takePara] at hl
  | cons a as ih =>
    intro l hl
    simp only [takePara] at hl
    split at hl
    · exact List.mem_cons_of_mem a (ih l hl)
    · exact hl

theorem takePara_fst_good : ∀ (ls : List PyStr) (l : PyStr),
    l ∈ (takePara ls).1 → pstrip l ≠ [] := by
  intro ls
  induction ls with
  | nil => intro l hl; simp [takePara] at hl
  | cons a as ih =>
    intro l hl
    simp only [takePara] at hl
    split at hl
    · next hcond =>
      rcases List.mem_cons.mp hl with h | h
      · exact h ▸ hcond.1
      · exact ih l h
    · simp at hl

theorem mem_joinSpace : ∀ (ls : List PyStr) (c : Char), c ∈ joinSpace ls →
    c = ' ' ∨ ∃ l ∈ ls, c ∈ l := by
  intro ls
  induction ls with
  | nil => intro c hc; simp [joinSpace, List.intercalate] at hc
  | cons a as ih =>
    cases as with
    | nil =>
      intro c hc
      rw [joinSpace_single] at hc
      exact Or.inr ⟨a, List.mem_cons_self a [], hc⟩
    | cons b ls2 =>
      intro c hc
      rw [joinSpace_cons_cons] at hc
      rcases List.mem_append.mp hc with h | h
      · exact Or.inr ⟨a, List.mem_cons_self a _, h⟩
      · rcases List.mem_cons.mp h with h | h
        · exact Or.inl h
        · rcases ih c h with h2 | ⟨l, hl, hcl⟩
          · exact Or.inl h2
          · exact Or.inr ⟨l, List.mem_cons_of_mem a hl, hcl⟩

theorem pstrip_append_ne_nil (a x : PyStr) (h : pstrip a ≠ []) :
    pstrip (a ++ x) ≠ [] := by
  intro hcon
  apply h
  rw [pstrip_eq_nil_iff] at hcon ⊢
  exact fun c hc => hcon c (List.mem_append.mpr (Or.inl hc))

theorem isPrefixOf_head_eq (sep : PyStr) (c : Char) (x y : PyStr)
    (hsep : sep.length ≤ 1) :
    List.isPrefixOf sep (c :: x) = List.isPrefixOf sep (c :: y) := by
  cases sep with
  | nil => rfl
  | cons s0 tl =>
    cases tl with
    | nil => simp [isPrefixOf_cons_cons, List.isPrefixOf]
    | cons s1 tl2 => simp at hsep

theorem parseBlocks_heading (line : PyStr) (rest : List PyStr)
    (h0 : ¬ pstrip line = []) (h1 : List.isPrefixOf (str "#") line = true) :
    parseBlocks (line :: rest) =
      Node.heading (min (line.length - (line.dropWhile (· = '#')).length) 6)
        [Node.text (pstrip (line.dropWhile (· = '#'))) []] :: parseBlocks rest := by
  simp only [parseBlocks, if_neg h0, if_pos h1]

theorem parseBlocks_rule (line : PyStr) (rest : List PyStr)
    (h0 : ¬ pstrip line = [])
    (h1 : ¬ List.isPrefixOf (str "#") line = true)
    (h2 : pstrip line = str "---" ∨ pstrip line = str "***" ∨ pstrip line = str "___") :
    parseBlocks (line :: rest) = Node.rule :: parseBlocks rest := by
  simp only [parseBlocks, if_neg h0, if_neg h1, if_pos h2]

theorem parseBlocks_bullet (line : PyStr) (rest : List PyStr)
    (h0 : ¬ pstrip line = [])
    (h1 : ¬ List.isPrefixOf (str "#") line = true)
    (h2 : ¬ (pstrip line = str "---" ∨ pstrip line = str "***" ∨ pstrip line = str "___"))
    (h3 : List.isPrefixOf (str "-") (pstrip line) = true ∨
      List.isPrefixOf (str "*") (pstrip line) = true ∨
      List.isPrefixOf (str "+") (pstrip line) = true) :
    parseBlocks (line :: rest) =
      Node.bulletList [Node.listItem [Node.paragraph
        [Node.text (pstrip ((pstrip line).drop 1)) []]]] :: parseBlocks rest := by
  simp only [parseBlocks, if_neg h0, if_neg h1, if_neg h2, if_pos h3]

theorem parseBlocks_quote (line : PyStr) (rest : List PyStr)
    (h0 : ¬ pstrip line = [])
    (h1 : ¬ List.isPrefixOf (str "#") line = true)
    (h2 : ¬ (pstrip line = str "---" ∨ pstrip line = str "***" ∨ pstrip line = str "___"))
    (h3 : ¬ (List.isPrefixOf (str "-") (pstrip line) = true ∨
      List.isPrefixOf (str "*") (pstrip line) = true ∨
      List.isPrefixOf (str "+") (pstrip line) = true))
    (h4 : List.isPrefixOf (str ">") (pstrip line) = true) :
    parseBlocks (line :: rest) =
      Node.blockquote [Node.paragraph [Node.text (pstrip ((pstrip line).drop 1)) []]]
        :: parseBlocks rest := by
  simp only [parseBlocks, if_neg h0, if_neg h1, if_neg h2, if_neg h3, if_pos h4]

theorem parseBlocks_image (line : PyStr) (rest : List PyStr) (alt src : PyStr)
    (h0 : ¬ pstrip line = [])
    (h1 : ¬ List.isPrefixOf (str "#") line = true)
    (h2 : ¬ (pstrip line = str "---" ∨ pstrip line = str "***" ∨ pstrip line = str "___"))
    (h3 : ¬ (List.isPrefixOf (str "-") (pstrip line) = true ∨
      List.isPrefixOf (str "*") (pstrip line) = true ∨
      List.isPrefixOf (str "+") (pstrip line) = true))
    (h4 : ¬ List.isPrefixOf (str ">") (pstrip line) = true)
    (h5 : List.isPrefixOf (str "![") (pstrip line) = true)
    (hm : matchImage (pstrip line) = some (alt, src)) :
    parseBlocks (line :: rest) =
      Node.paragraph [Node.text (str "![" ++ alt ++ str "](" ++ src ++ str ")") []]
        :: parseBlocks rest := by
  simp only [parseBlocks, if_neg h0, if_neg h1, if_neg h2, if_neg h3, if_neg h4,
    if_pos h5, hm]

theorem parseBlocks_para (line : PyStr) (rest : List PyStr)
    (h0 : ¬ pstrip line = [])
    (h1 : ¬ List.isPrefixOf (str "#") line = true)
    (h2 : ¬ (pstrip line = str "---" ∨ pstrip line = str "***" ∨ pstrip line = str "___"))
    (h3 : ¬ (List.isPrefixOf (str "-") (pstrip line) = true ∨
      List.isPrefixOf (str "*") (pstrip line) = true ∨
      List.isPrefixOf (str "+") (pstrip line) = true))
    (h4 : ¬ List.isPrefixOf (str ">") (pstrip line) = true)
    (h5 : ¬ List.isPrefixOf (str "![") (pstrip line) = true) :
    parseBlocks (line :: rest) =
      Node.paragraph [Node.text (joinSpace (line :: (takePara rest).1)) []]
        :: parseBlocks (takePara rest).2 := by
  simp only [parseBlocks, if_neg h0, if_neg h1, if_neg h2, if_neg h3, if_neg h4,
    if_neg h5]

theorem serialize_heading_shape (m : Nat) (t : PyStr) (S : PyStr) :
    process_one (Node.heading m [Node.text t []]) ++ S
      = (List.replicate m '#' ++ ' ' :: t) ++ '\n' :: S := by
  simp only [process_one, process_text]
  rw [show str "\n" = ['\n'] from rfl]
  simp [List.append_assoc]

theorem serialize_rule_shape (S : PyStr) :
    process_one Node.rule ++ S = str "---" ++ '\n' :: S := by
  simp only [process_one]
  rw [show str "---\n" = str "---" ++ ['\n'] from rfl]
  simp [List.append_assoc]

theorem serialize_bullet_shape (t : PyStr) (S : PyStr) :
    process_one (Node.bulletList [Node.listItem [Node.paragraph [Node.text t []]]]) ++ S
      = ('-' :: ' ' :: t) ++ '\n' :: '\n' :: '\n' :: S := by
  simp only [process_one, process_items, Node.getContent, process_nodes_cons,
    process_nodes_nil, process_text]
  rw [show str "-" = ['-'] from rfl, show str "\n\n" = ['\n', '\n'] from rfl,
    show str "\n" = ['\n'] from rfl]
  simp [List.append_assoc, applyMarks]

theorem serialize_quote_shape (t : PyStr) (S : PyStr) :
    process_one (Node.blockquote [Node.paragraph [Node.text t []]]) ++ S
      = ('>' :: ' ' :: t) ++ '\n' :: '\n' :: '\n' :: S := by
  simp only [process_one, process_nodes_cons, process_nodes_nil, process_text]
  rw [show str "> " = ['>', ' '] from rfl, show str "\n\n" = ['\n', '\n'] from rfl,
    show str "\n" = ['\n'] from rfl]
  simp [List.append_assoc, applyMarks]

theorem serialize_para_shape (T : PyStr) (S : PyStr) :
    process_one (Node.paragraph [Node.text T []]) ++ S
      = T ++ '\n' :: '\n' :: S := by
  simp only [process_one, process_text]
  rw [show str "\n\n" = ['\n', '\n'] from rfl]
  simp [List.append_assoc]

theorem dropWhile_hash_replicate (t : PyStr) : ∀ m : Nat,
    List.dropWhile (· = '#') (List.replicate m '#' ++ ' ' :: t) = ' ' :: t := by
  intro m
  induction m with
  | zero => simp [List.dropWhile_cons]
  | succ k ih => simp [List.replicate_succ, List.dropWhile_cons, ih]

theorem reparse_heading (m : Nat) (t : PyStr) (X : List PyStr)
    (hm1 : 1 ≤ m) (hm6 : m ≤ 6) (ht : pstrip t = t) :
    parseBlocks ((List.replicate m '#' ++ ' ' :: t) :: X)
      = Node.heading m [Node.text t []] :: parseBlocks X := by
  have h0 : ¬ pstrip (List.replicate m '#' ++ ' ' :: t) = [] := by
    intro hcon
    rw [pstrip_eq_nil_iff] at hcon
    have hmem : '#' ∈ List.replicate m '#' ++ ' ' :: t := by
      refine List.mem_append.mpr (Or.inl ?_)
      exact List.mem_replicate.mpr ⟨by omega, rfl⟩
    exact absurd (hcon '#' hmem) (by decide)
  have h1 : List.isPrefixOf (str "#") (List.replicate m '#' ++ ' ' :: t) = true := by
    obtain ⟨k, rfl⟩ : ∃ k, m = k + 1 := ⟨m - 1, by omega⟩
    rw [List.replicate_succ, List.cons_append]
    rw [show str "#" = ['#'] from rfl, isPrefixOf_cons_cons]
    simp [List.isPrefixOf]
  rw [parseBlocks_heading _ X h0 h1]
  rw [dropWhile_hash_replicate]
  have hlev : (List.replicate m '#' ++ ' ' :: t).length - (' ' :: t).length = m := by
    simp only [List.length_append, List.length_replicate, List.length_cons]
    omega
  rw [hlev, Nat.min_eq_left hm6]
  rw [pstrip_cons_space ' ' t (by decide), ht]

theorem reparse_rule (X : List PyStr) :
    parseBlocks (str "---" :: X) = Node.rule :: parseBlocks X :=
  parseBlocks_rule _ X (by decide) (by decide) (Or.inl (by decide))

theorem reparse_bullet (t : PyStr) (X : List PyStr) (ht : pstrip t = t) :
    parseBlocks (('-' :: ' ' :: t) :: X)
      = Node.bulletList [Node.listItem [Node.paragraph [Node.text t []]]]
        :: parseBlocks X := by
  by_cases htn : t = []
  · subst htn
    rw [parseBlocks_bullet _ X (by decide) (by decide) (by decide) (Or.inl (by decide))]
    rw [show pstrip ((pstrip ('-' :: ' ' :: ([] : PyStr))).drop 1) = [] from by decide]
  · have hrt : rstrip t = t := (trimmed_parts t ht).2
    have hrtn : rstrip t ≠ [] := by rw [hrt]; exact htn
    have hps : pstrip ('-' :: ' ' :: t) = '-' :: ' ' :: t := by
      simp only [pstrip]
      rw [lstrip_cons_of_not_space '-' _ (by decide)]
      rw [show '-' :: ' ' :: t = (['-', ' '] : PyStr) ++ t from rfl]
      rw [rstrip_append_of_ne_nil _ t hrtn, hrt]
    have h0 : ¬ pstrip ('-' :: ' ' :: t) = [] := by rw [hps]; simp
    have h1 : ¬ List.isPrefixOf (str "#") ('-' :: ' ' :: t) = true := by
      rw [show str "#" = ['#'] from rfl, isPrefixOf_cons_cons]
      simp
    have h2 : ¬ (pstrip ('-' :: ' ' :: t) = str "---" ∨
        pstrip ('-' :: ' ' :: t) = str "***" ∨
        pstrip ('-' :: ' ' :: t) = str "___") := by
      rw [hps]
      rintro (h | h | h)
      · rw [show str "---" = ['-', '-', '-'] from rfl] at h; simp at h
      · rw [show str "***" = ['*', '*', '*'] from rfl] at h; simp at h
      · rw [show str "___" = ['_', '_', '_'] from rfl] at h; simp at h
    have h3 : List.isPrefixOf (str "-") (pstrip ('-' :: ' ' :: t)) = true ∨
        List.isPrefixOf (str "*") (pstrip ('-' :: ' ' :: t)) = true ∨
        List.isPrefixOf (str "+") (pstrip ('-' :: ' ' :: t)) = true := by
      left
      rw [hps, show str "-" = ['-'] from rfl, isPrefixOf_cons_cons]
      simp [List.isPrefixOf]
    rw [parseBlocks_bullet _ X h0 h1 h2 h3]
    rw [hps]
    rw [show ('-' :: ' ' :: t).drop 1 = ' ' :: t from rfl]
    rw [pstrip_cons_space ' ' t (by decide), ht]

theorem reparse_quote (t : PyStr) (X : List PyStr) (ht : pstrip t = t) :
    parseBlocks (('>' :: ' ' :: t) :: X)
      = Node.blockquote [Node.paragraph [Node.text t []]] :: parseBlocks X := by
  by_cases htn : t = []
  · subst htn
    rw [parseBlocks_quote _ X (by decide) (by decide) (by decide) (by decide)
      (by decide)]
    rw [show pstrip ((pstrip ('>' :: ' ' :: ([] : PyStr))).drop 1) = [] from by decide]
  · have hrt : rstrip t = t := (trimmed_parts t ht).2
    have hrtn : rstrip t ≠ [] := by rw [hrt]; exact htn
    have hps : pstrip ('>' :: ' ' :: t) = '>' :: ' ' :: t := by
      simp only [pstrip]
      rw [lstrip_cons_of_not_space '>' _ (by decide)]
      rw [show '>' :: ' ' :: t = (['>', ' '] : PyStr) ++ t from rfl]
      rw [rstrip_append_of_ne_nil _ t hrtn, hrt]
    have h0 : ¬ pstrip ('>' :: ' ' :: t) = [] := by rw [hps]; simp
    have h1 : ¬ List.isPrefixOf (str "#") ('>' :: ' ' :: t) = true := by
      rw [show str "#" = ['#'] from rfl, isPrefixOf_cons_cons]
      simp
    have h2 : ¬ (pstrip ('>' :: ' ' :: t) = str "---" ∨
        pstrip ('>' :: ' ' :: t) = str "***" ∨
        pstrip ('>' :: ' ' :: t) = str "___") := by
      rw [hps]
      rintro (h | h | h)
      · rw [show str "---" = ['-', '-', '-'] from rfl] at h; simp at h
      · rw [show str "***" = ['*', '*', '*'] from rfl] at h; simp at h
      · rw [show str "___" = ['_', '_', '_'] from rfl] at h; simp at h
    have h3 : ¬ (List.isPrefixOf (str "-") (pstrip ('>' :: ' ' :: t)) = true ∨
        List.isPrefixOf (str "*") (pstrip ('>' :: ' ' :: t)) = true ∨
        List.isPrefixOf (str "+") (pstrip ('>' :: ' ' :: t)) = true) := by
      rw [hps]
      rintro (h | h | h)
      · rw [show str "-" = ['-'] from rfl, isPrefixOf_cons_cons] at h; simp at h
      · rw [show str "*" = ['*'] from rfl, isPrefixOf_cons_cons] at h; simp at h
      · rw [show str "+" = ['+'] from rfl, isPrefixOf_cons_cons] at h; simp at h
    have h4 : List.isPrefixOf (str ">") (pstrip ('>' :: ' ' :: t)) = true := by
      rw [hps, show str ">" = ['>'] from rfl, isPrefixOf_cons_cons]
      simp [List.isPrefixOf]
    rw [parseBlocks_quote _ X h0 h1 h2 h3 h4]
    rw [hps]
    rw [show ('>' :: ' ' :: t).drop 1 = ' ' :: t from rfl]
    rw [pstrip_cons_space ' ' t (by decide), ht]

theorem reparse_para (T : PyStr) (X : List PyStr)
    (h0 : ¬ pstrip T = [])
    (h1 : ¬ List.isPrefixOf (str "#") T = true)
    (h2 : ¬ (pstrip T = str "---" ∨ pstrip T = str "***" ∨ pstrip T = str "___"))
    (h3 : ¬ (List.isPrefixOf (str "-") (pstrip T) = true ∨
      List.isPrefixOf (str "*") (pstrip T) = true ∨
      List.isPrefixOf (str "+") (pstrip T) = true))
    (h4 : ¬ List.isPrefixOf (str ">") (pstrip T) = true)
    (h5 : ¬ List.isPrefixOf (str "![") (pstrip T) = true) :
    parseBlocks (T :: [] :: X)
      = Node.paragraph [Node.text T []] :: parseBlocks X := by
  rw [parseBlocks_para T ([] :: X) h0 h1 h2 h3 h4 h5]
  have htp : takePara ([] :: X) = ([], [] :: X) := by
    simp only [takePara]
    rw [if_neg (fun hc => hc.1 rfl)]
  simp only [htp]
  rw [joinSpace_single]
  rw [parseBlocks_blank [] X rfl]

theorem splitFirst_decomp (sep : PyStr) : ∀ (s a b : PyStr),
    splitFirst sep s = some (a, b) → s = a ++ (sep ++ b) := by
  intro s
  induction s with
  | nil => intro a b h; simp [splitFirst] at h
  | cons c cs ih =>
    intro a b h
    simp only [splitFirst] at h
    by_cases hp : sep.isPrefixOf (c :: cs) = true
    · rw [if_pos hp] at h
      obtain ⟨u, hu⟩ := List.isPrefixOf_iff_prefix.mp hp
      injection h with h2
      obtain ⟨ha, hb⟩ := Prod.mk.inj h2
      subst ha
      rw [List.nil_append]
      rw [← hu, List.drop_left] at hb
      rw [← hu, hb]
    · rw [if_neg hp] at h
      cases hsp : splitFirst sep cs with
      | none => rw [hsp] at h; exact absurd h (by simp)
      | some p =>
        obtain ⟨x, y⟩ := p
        rw [hsp] at h
        injection h with h2
        obtain ⟨ha, hb⟩ := Prod.mk.inj h2
        subst hb
        have hcs := ih x y hsp
        rw [← ha, hcs, List.cons_append]

theorem isPrefixOf_pair_transfer (s0 s1 : Char) (hne : s0 ≠ s1)
    (a b b' : PyStr) :
    List.isPrefixOf [s0, s1] (a ++ s0 :: s1 :: b)
      = List.isPrefixOf [s0, s1] (a ++ s0 :: s1 :: b') := by
  have h10 : (s1 == s0) = false := by
    simp only [beq_eq_false_iff_ne, ne_eq]
    exact fun hx => hne hx.symm
  cases a with
  | nil => simp [isPrefixOf_cons_cons, List.isPrefixOf]
  | cons c a2 =>
    cases a2 with
    | nil =>
      simp only [List.cons_append, List.nil_append, isPrefixOf_cons_cons, h10]
      simp
    | cons d a3 =>
      simp only [List.cons_append, isPrefixOf_cons_cons]
      simp [List.isPrefixOf]

theorem isPrefixOf_single_transfer (s0 : Char) (a b b' : PyStr) :
    List.isPrefixOf [s0] (a ++ s0 :: b) = List.isPrefixOf [s0] (a ++ s0 :: b') := by
  cases a with
  | nil => simp [isPrefixOf_cons_cons, List.isPrefixOf]
  | cons c a2 =>
    simp only [List.cons_append, isPrefixOf_cons_cons]
    simp [List.isPrefixOf]

theorem splitFirst_transfer_pair (s0 s1 : Char) (hne : s0 ≠ s1) :
    ∀ (a b b' : PyStr), splitFirst [s0, s1] (a ++ s0 :: s1 :: b) = some (a, b) →
      splitFirst [s0, s1] (a ++ s0 :: s1 :: b') = some (a, b') := by
  intro a
  induction a with
  | nil =>
    intro b b' _
    rw [List.nil_append]
    show splitFirst [s0, s1] (s0 :: s1 :: b') = some ([], b')
    rw [show splitFirst [s0, s1] (s0 :: s1 :: b')
        = if List.isPrefixOf [s0, s1] (s0 :: s1 :: b') = true
          then some (([] : PyStr), (s0 :: s1 :: b').drop 2)
          else match splitFirst [s0, s1] (s1 :: b') with
            | some (p, q) => some (s0 :: p, q)
            | none => none from rfl]
    rw [if_pos (by simp [isPrefixOf_cons_cons, List.isPrefixOf] :
      List.isPrefixOf [s0, s1] (s0 :: s1 :: b') = true)]
    rfl
  | cons c a2 ih =>
    intro b b' h
    rw [List.cons_append] at h ⊢
    rw [show splitFirst [s0, s1] (c :: (a2 ++ s0 :: s1 :: b))
        = if List.isPrefixOf [s0, s1] (c :: (a2 ++ s0 :: s1 :: b)) = true
          then some (([] : PyStr), (c :: (a2 ++ s0 :: s1 :: b)).drop 2)
          else match splitFirst [s0, s1] (a2 ++ s0 :: s1 :: b) with
            | some (p, q) => some (c :: p, q)
            | none => none from rfl] at h
    rw [show splitFirst [s0, s1] (c :: (a2 ++ s0 :: s1 :: b'))
        = if List.isPrefixOf [s0, s1] (c :: (a2 ++ s0 :: s1 :: b')) = true
          then some (([] : PyStr), (c :: (a2 ++ s0 :: s1 :: b')).drop 2)
          else match splitFirst [s0, s1] (a2 ++ s0 :: s1 :: b') with
            | some (p, q) => some (c :: p, q)
            | none => none from rfl]
    by_cases hp : List.isPrefixOf [s0, s1] (c :: (a2 ++ s0 :: s1 :: b)) = true
    · rw [if_pos hp] at h
      injection h with h2
      exact absurd (Prod.mk.inj h2).1 (by simp)
    · rw [if_neg hp] at h
      have heq := isPrefixOf_pair_transfer s0 s1 hne (c :: a2) b b'
      simp only [List.cons_append] at heq
      have hp' : ¬ List.isPrefixOf [s0, s1] (c :: (a2 ++ s0 :: s1 :: b')) = true :=
        fun hx => hp (heq.trans hx)
      rw [if_neg hp']
      cases hsp : splitFirst [s0, s1] (a2 ++ s0 :: s1 :: b) with
      | none => rw [hsp] at h; exact absurd h (by simp)
      | some p =>
        obtain ⟨x, y⟩ := p
        rw [hsp] at h
        injection h with h2
        obtain ⟨hx, hy⟩ := Prod.mk.inj h2
        have hx2 : x = a2 := by
          have := congrArg List.tail hx
          simpa using this
        subst hx2
        rw [hy] at hsp
        rw [ih b b' hsp]

theorem splitFirst_transfer_single (s0 : Char) :
    ∀ (a b b' : PyStr), splitFirst [s0] (a ++ s0 :: b) = some (a, b) →
      splitFirst [s0] (a ++ s0 :: b') = some (a, b') := by
  intro a
  induction a with
  | nil =>
    intro b b' _
    rw [List.nil_append]
    show splitFirst [s0] (s0 :: b') = some ([], b')
    rw [show splitFirst [s0] (s0 :: b')
        = if List.isPrefixOf [s0] (s0 :: b') = true
          then some (([] : PyStr), (s0 :: b').drop 1)
          else match splitFirst [s0] b' with
            | some (p, q) => some (s0 :: p, q)
            | none => none from rfl]
    rw [if_pos (by simp [isPrefixOf_cons_cons, List.isPrefixOf] :
      List.isPrefixOf [s0] (s0 :: b') = true)]
    rfl
  | cons c a2 ih =>
    intro b b' h
    rw [List.cons_append] at h ⊢
    rw [show splitFirst [s0] (c :: (a2 ++ s0 :: b))
        = if List.isPrefixOf [s0] (c :: (a2 ++ s0 :: b)) = true
          then some (([] : PyStr), (c :: (a2 ++ s0 :: b)).drop 1)
          else match splitFirst [s0] (a2 ++ s0 :: b) with
            | some (p, q) => some (c :: p, q)
            | none => none from rfl] at h
    rw [show splitFirst [s0] (c :: (a2 ++ s0 :: b'))
        = if List.isPrefixOf [s0] (c :: (a2 ++ s0 :: b')) = true
          then some (([] : PyStr), (c :: (a2 ++ s0 :: b')).drop 1)
          else match splitFirst [s0] (a2 ++ s0 :: b') with
            | some (p, q) => some (c :: p, q)
            | none => none from rfl]
    by_cases hp : List.isPrefixOf [s0] (c :: (a2 ++ s0 :: b)) = true
    · rw [if_pos hp] at h
      injection h with h2
      exact absurd (Prod.mk.inj h2).1 (by simp)
    · rw [if_neg hp] at h
      have heq := isPrefixOf_single_transfer s0 (c :: a2) b b'
      simp only [List.cons_append] at heq
      have hp' : ¬ List.isPrefixOf [s0] (c :: (a2 ++ s0 :: b')) = true :=
        fun hx => hp (heq.trans hx)
      rw [if_neg hp']
      cases hsp : splitFirst [s0] (a2 ++ s0 :: b) with
      | none => rw [hsp] at h; exact absurd h (by simp)
      | some p =>
        obtain ⟨x, y⟩ := p
        rw [hsp] at h
        injection h with h2
        obtain ⟨hx, hy⟩ := Prod.mk.inj h2
        have hx2 : x = a2 := by
          have := congrArg List.tail hx
          simpa using this
        subst hx2
        rw [hy] at hsp
        rw [ih b b' hsp]

theorem matchImage_inv (s alt src : PyStr) (h : matchImage s = some (alt, src)) :
    ∃ r1 r2, splitFirst (str "](") (s.drop 2) = some (alt, r1) ∧
      splitFirst (str ")") r1 = some (src, r2) := by
  unfold matchImage at h
  by_cases hp : List.isPrefixOf (str "![") s = true
  · rw [if_pos hp] at h
    cases h1 : splitFirst (str "](") (s.drop 2) with
    | none =>
      simp only [h1] at h
      exact absurd h (by simp)
    | some p =>
      obtain ⟨a1, r1⟩ := p
      simp only [h1] at h
      cases h2 : splitFirst (str ")") r1 with
      | none =>
        simp only [h2] at h
        exact absurd h (by simp)
      | some q =>
        obtain ⟨s1, r2⟩ := q
        simp only [h2, Option.some.injEq, Prod.mk.injEq] at h
        obtain ⟨ha, hb⟩ := h
        subst ha
        subst hb
        exact ⟨r1, r2, rfl, h2⟩
  · rw [if_neg hp] at h
    exact absurd h (by simp)

theorem reparse_image (alt src : PyStr) (X : List PyStr)
    (hsf1 : splitFirst (str "](") (((alt ++ str "](") ++ src) ++ str ")")
      = some (alt, src ++ str ")"))
    (hsf2 : splitFirst (str ")") (src ++ str ")") = some (src, [])) :
    parseBlocks (('!' :: '[' :: (((alt ++ str "](") ++ src) ++ str ")")) :: X)
      = Node.paragraph [Node.text (str "![" ++ alt ++ str "](" ++ src ++ str ")") []]
        :: parseBlocks X := by
  have hps : pstrip ('!' :: '[' :: (((alt ++ str "](") ++ src) ++ str ")"))
      = '!' :: '[' :: (((alt ++ str "](") ++ src) ++ str ")") := by
    simp only [pstrip]
    rw [lstrip_cons_of_not_space '!' _ (by decide)]
    rw [show '!' :: '[' :: (((alt ++ str "](") ++ src) ++ str ")")
        = ('!' :: '[' :: ((alt ++ str "](") ++ src)) ++ str ")" from rfl]
    rw [rstrip_append_of_ne_nil _ _ (by decide : rstrip (str ")") ≠ [])]
    rw [show rstrip (str ")") = str ")" from by decide]
  have h0 : ¬ pstrip ('!' :: '[' :: (((alt ++ str "](") ++ src) ++ str ")")) = [] := by
    rw [hps]; simp
  have h1 : ¬ List.isPrefixOf (str "#")
      ('!' :: '[' :: (((alt ++ str "](") ++ src) ++ str ")")) = true := by
    rw [show str "#" = ['#'] from rfl, isPrefixOf_cons_cons]
    simp
  have h2 : ¬ (pstrip ('!' :: '[' :: (((alt ++ str "](") ++ src) ++ str ")")) = str "---"
      ∨ pstrip ('!' :: '[' :: (((alt ++ str "](") ++ src) ++ str ")")) = str "***"
      ∨ pstrip ('!' :: '[' :: (((alt ++ str "](") ++ src) ++ str ")")) = str "___") := by
    rw [hps]
    rintro (hx | hx | hx)
    · rw [show str "---" = ['-', '-', '-'] from rfl] at hx; simp at hx
    · rw [show str "***" = ['*', '*', '*'] from rfl] at hx; simp at hx
    · rw [show str "___" = ['_', '_', '_'] from rfl] at hx; simp at hx
  have h3 : ¬ (List.isPrefixOf (str "-")
        (pstrip ('!' :: '[' :: (((alt ++ str "](") ++ src) ++ str ")"))) = true ∨
      List.isPrefixOf (str "*")
        (pstrip ('!' :: '[' :: (((alt ++ str "](") ++ src) ++ str ")"))) = true ∨
      List.isPrefixOf (str "+")
        (pstrip ('!' :: '[' :: (((alt ++ str "](") ++ src) ++ str ")"))) = true) := by
    rw [hps]
    rintro (hx | hx | hx)
    · rw [show str "-" = ['-'] from rfl, isPrefixOf_cons_cons] at hx; simp at hx
    · rw [show str "*" = ['*'] from rfl, isPrefixOf_cons_cons] at hx; simp at hx
    · rw [show str "+" = ['+'] from rfl, isPrefixOf_cons_cons] at hx; simp at hx
  have h4 : ¬ List.isPrefixOf (str ">")
      (pstrip ('!' :: '[' :: (((alt ++ str "](") ++ src) ++ str ")"))) = true := by
    rw [hps, show str ">" = ['>'] from rfl, isPrefixOf_cons_cons]
    simp
  have h5 : List.isPrefixOf (str "![")
      (pstrip ('!' :: '[' :: (((alt ++ str "](") ++ src) ++ str ")"))) = true := by
    rw [hps, show str "![" = '!' :: ['['] from rfl, isPrefixOf_cons_cons,
      isPrefixOf_cons_cons]
    simp [List.isPrefixOf]
  have hmatch : matchImage
      (pstrip ('!' :: '[' :: (((alt ++ str "](") ++ src) ++ str ")")))
      = some (alt, src) := by
    rw [hps]
    unfold matchImage
    rw [if_pos (by
      rw [show str "![" = '!' :: ['['] from rfl, isPrefixOf_cons_cons,
        isPrefixOf_cons_cons]
      simp [List.isPrefixOf])]
    rw [show List.drop 2 ('!' :: '[' :: (((alt ++ str "](") ++ src) ++ str ")"))
        = ((alt ++ str "](") ++ src) ++ str ")" from rfl]
    simp only [hsf1, hsf2]
  rw [parseBlocks_image _ X alt src h0 h1 h2 h3 h4 h5 hmatch]

theorem para_conditions (line Z : PyStr)
    (hb : ¬ pstrip line = [])
    (hh : ¬ List.isPrefixOf (str "#") line = true)
    (hr : ¬ (pstrip line = str "---" ∨ pstrip line = str "***" ∨ pstrip line = str "___"))
    (hbl : ¬ (List.isPrefixOf (str "-") (pstrip line) = true ∨
      List.isPrefixOf (str "*") (pstrip line) = true ∨
      List.isPrefixOf (str "+") (pstrip line) = true))
    (hq : ¬ List.isPrefixOf (str ">") (pstrip line) = true)
    (him : ¬ List.isPrefixOf (str "![") (pstrip line) = true)
    (hZ : pstrip Z ≠ []) :
    (¬ pstrip (line ++ ' ' :: Z) = []) ∧
    (¬ List.isPrefixOf (str "#") (line ++ ' ' :: Z) = true) ∧
    (¬ (pstrip (line ++ ' ' :: Z) = str "---" ∨ pstrip (line ++ ' ' :: Z) = str "***"
      ∨ pstrip (line ++ ' ' :: Z) = str "___")) ∧
    (¬ (List.isPrefixOf (str "-") (pstrip (line ++ ' ' :: Z)) = true ∨
      List.isPrefixOf (str "*") (pstrip (line ++ ' ' :: Z)) = true ∨
      List.isPrefixOf (str "+") (pstrip (line ++ ' ' :: Z)) = true)) ∧
    (¬ List.isPrefixOf (str ">") (pstrip (line ++ ' ' :: Z)) = true) ∧
    (¬ List.isPrefixOf (str "![") (pstrip (line ++ ' ' :: Z)) = true) := by
  have hf2 : pstrip (line ++ ' ' :: Z) = lstrip line ++ ' ' :: rstrip Z :=
    pstrip_append_sep line Z hb hZ
  obtain ⟨c0, w, hlw⟩ : ∃ c0 w, lstrip line = c0 :: w := by
    cases hx : lstrip line with
    | nil =>
      exfalso
      apply hb
      show rstrip (lstrip line) = []
      rw [hx]
      rfl
    | cons a as => exact ⟨a, as, rfl⟩
  have hlinene : line ≠ [] := by
    intro hx
    apply hb
    rw [hx]
    rfl
  obtain ⟨d0, dt, hd⟩ : ∃ d0 dt, line = d0 :: dt := by
    cases hx : line with
    | nil => exact absurd hx hlinene
    | cons a as => exact ⟨a, as, rfl⟩
  obtain ⟨w', hw'⟩ : ∃ w', pstrip line = c0 :: w' := by
    have hpref : pstrip line <+: lstrip line := rstrip_front (lstrip line)
    obtain ⟨u, hu⟩ := hpref
    cases hps' : pstrip line with
    | nil => exact absurd hps' hb
    | cons e es =>
      rw [hps', hlw] at hu
      have he : e = c0 := by
        have := congrArg (fun l => l.headD ' ') hu
        simpa using this
      exact ⟨es, by rw [he]⟩
  refine ⟨?_, ?_, ?_, ?_, ?_, ?_⟩
  · rw [hf2, hlw]
    simp
  · rw [hd, List.cons_append]
    rw [isPrefixOf_head_eq (str "#") d0 _ dt (by decide)]
    rw [← hd]
    exact hh
  · rw [hf2]
    rintro (hx | hx | hx)
    · have hmem : ' ' ∈ str "---" := by rw [← hx]; simp
      exact absurd hmem (by decide)
    · have hmem : ' ' ∈ str "***" := by rw [← hx]; simp
      exact absurd hmem (by decide)
    · have hmem : ' ' ∈ str "___" := by rw [← hx]; simp
      exact absurd hmem (by decide)
  · rw [hf2, hlw, List.cons_append]
    rintro (hx | hx | hx)
    · rw [isPrefixOf_head_eq (str "-") c0 _ w' (by decide)] at hx
      rw [← hw'] at hx
      exact hbl (Or.inl hx)
    · rw [isPrefixOf_head_eq (str "*") c0 _ w' (by decide)] at hx
      rw [← hw'] at hx
      exact hbl (Or.inr (Or.inl hx))
    · rw [isPrefixOf_head_eq (str "+") c0 _ w' (by decide)] at hx
      rw [← hw'] at hx
      exact hbl (Or.inr (Or.inr hx))
  · rw [hf2, hlw, List.cons_append]
    intro hx
    rw [isPrefixOf_head_eq (str ">") c0 _ w' (by decide)] at hx
    rw [← hw'] at hx
    exact hq hx
  · rw [hf2, hlw, List.cons_append]
    intro hx
    rw [show str "![" = '!' :: ['['] from rfl, isPrefixOf_cons_cons,
      Bool.and_eq_true] at hx
    obtain ⟨hx1, hx2⟩ := hx
    have hc0 : c0 = '!' := (eq_of_beq hx1).symm
    cases hw : w with
    | nil =>
      rw [hw] at hx2
      simp only [List.nil_append] at hx2
      rw [isPrefixOf_cons_cons] at hx2
      simp at hx2
    | cons d w2 =>
      rw [hw, List.cons_append, isPrefixOf_cons_cons, Bool.and_eq_true] at hx2
      have hd2 : d = '[' := (eq_of_beq hx2.1).symm
      cases hwp : w' with
      | nil =>
        obtain ⟨ws, hws, hwss⟩ := rstrip_decomposition (lstrip line)
        have hws2 : c0 :: w = (c0 :: w') ++ ws := by
          rw [← hlw, ← hw']
          exact hws
        rw [hwp, List.cons_append, List.nil_append] at hws2
        have hwmem : d ∈ ws := by
          have := congrArg List.tail hws2
          simp only [List.tail_cons] at this
          rw [hw] at this
          rw [← this]
          exact List.mem_cons_self d w2
        have hdsp := hwss d hwmem
        rw [hd2] at hdsp
        exact absurd hdsp (by decide)
      | cons e w2' =>
        have hpref : pstrip line <+: lstrip line := rstrip_front (lstrip line)
        obtain ⟨u, hu⟩ := hpref
        rw [hw', hwp, hlw, hw] at hu
        have he : e = d := by
          have := congrArg (fun l => l.tail.headD ' ') hu
          simpa using this
        apply him
        rw [hw', hwp, hc0, he, hd2]
        rw [show str "![" = '!' :: ['['] from rfl, isPrefixOf_cons_cons,
          isPrefixOf_cons_cons]
        simp [List.isPrefixOf]

theorem reparse_roundtrip : ∀ lines : List PyStr, (∀ l ∈ lines, '\n' ∉ l) →
    parseBlocks (splitLines (process_nodes (parseBlocks lines))) = parseBlocks lines
  | [], _ => by
    rw [parseBlocks_nil, process_nodes_nil]
    rw [show splitLines [] = [([] : PyStr)] from rfl]
    rw [parseBlocks_blank [] [] rfl, parseBlocks_nil]
  | line :: rest, h => by
    have hrest : ∀ l ∈ rest, '\n' ∉ l := fun l hl => h l (List.mem_cons_of_mem _ hl)
    have hline : '\n' ∉ line := h line (List.mem_cons_self _ _)
    by_cases hb : pstrip line = []
    · rw [parseBlocks_blank line rest hb]
      exact reparse_roundtrip rest hrest
    · by_cases hh : List.isPrefixOf (str "#") line = true
      · have hnl : '\n' ∉ List.replicate
            (min (line.length - (line.dropWhile (· = '#')).length) 6) '#'
            ++ ' ' :: pstrip (line.dropWhile (· = '#')) := by
          intro hmem
          rcases List.mem_append.mp hmem with hm | hm
          · exact absurd (List.eq_of_mem_replicate hm) (by decide)
          · rcases List.mem_cons.mp hm with hm | hm
            · exact absurd hm (by decide)
            · exact hline ((List.dropWhile_suffix _).subset (pstrip_subset _ hm))
        have hm1 : 1 ≤ min (line.length - (line.dropWhile (· = '#')).length) 6 := by
          obtain ⟨u, hu⟩ := List.isPrefixOf_iff_prefix.mp hh
          have hlt : (line.dropWhile (· = '#')).length < line.length := by
            rw [← hu]
            rw [show str "#" ++ u = '#' :: u from rfl]
            rw [List.dropWhile_cons]
            rw [if_pos (by decide)]
            have hsuf : List.dropWhile (· = '#') u <:+ u := List.dropWhile_suffix _
            have := hsuf.length_le
            simp only [List.length_cons]
            omega
          exact Nat.le_min.mpr ⟨by omega, by omega⟩
        rw [parseBlocks_heading line rest hb hh, process_nodes_cons,
          serialize_heading_shape]
        rw [splitLines_append_newline _ _ hnl]
        rw [reparse_heading _ _ _ hm1 (Nat.min_le_right _ _) (pstrip_idem _)]
        rw [reparse_roundtrip rest hrest]
      · by_cases hr : pstrip line = str "---" ∨ pstrip line = str "***"
            ∨ pstrip line = str "___"
        · rw [parseBlocks_rule line rest hb hh hr, process_nodes_cons,
            serialize_rule_shape]
          rw [splitLines_append_newline _ _ (by decide)]
          rw [reparse_rule, reparse_roundtrip rest hrest]
        · by_cases hbl : List.isPrefixOf (str "-") (pstrip line) = true
              ∨ List.isPrefixOf (str "*") (pstrip line) = true
              ∨ List.isPrefixOf (str "+") (pstrip line) = true
          · have hnl : '\n' ∉ '-' :: ' ' :: pstrip ((pstrip line).drop 1) := by
              intro hmem
              rcases List.mem_cons.mp hmem with hm | hm
              · exact absurd hm (by decide)
              · rcases List.mem_cons.mp hm with hm | hm
                · exact absurd hm (by decide)
                · exact hline (pstrip_subset _
                    (List.drop_subset _ _ (pstrip_subset _ hm)))
            rw [parseBlocks_bullet line rest hb hh hr hbl, process_nodes_cons,
              serialize_bullet_shape]
            rw [splitLines_append_newline _ _ hnl]
            rw [splitLines_cons_newline, splitLines_cons_newline]
            rw [reparse_bullet _ _ (pstrip_idem _)]
            rw [parseBlocks_blank [] _ rfl, parseBlocks_blank [] _ rfl]
            rw [reparse_roundtrip rest hrest]
          · by_cases hq : List.isPrefixOf (str ">") (pstrip line) = true
            · have hnl : '\n' ∉ '>' :: ' ' :: pstrip ((pstrip line).drop 1) := by
                intro hmem
                rcases List.mem_cons.mp hmem with hm | hm
                · exact absurd hm (by decide)
                · rcases List.mem_cons.mp hm with hm | hm
                  · exact absurd hm (by decide)
                  · exact hline (pstrip_subset _
                      (List.drop_subset _ _ (pstrip_subset _ hm)))
              rw [parseBlocks_quote line rest hb hh hr hbl hq, process_nodes_cons,
                serialize_quote_shape]
              rw [splitLines_append_newline _ _ hnl]
              rw [splitLines_cons_newline, splitLines_cons_newline]
              rw [reparse_quote _ _ (pstrip_idem _)]
              rw [parseBlocks_blank [] _ rfl, parseBlocks_blank [] _ rfl]
              rw [reparse_roundtrip rest hrest]
            · by_cases him : List.isPrefixOf (str "![") (pstrip line) = true
              · cases hmi : matchImage (pstrip line) with
                | none =>
                  have hskip : parseBlocks (line :: rest) = parseBlocks rest := by
                    simp only [parseBlocks, if_neg hb, if_neg hh, if_neg hr,
                      if_neg hbl, if_neg hq, if_pos him, hmi]
                  rw [hskip]
                  exact reparse_roundtrip rest hrest
                | some p =>
                  obtain ⟨alt, src⟩ := p
                  obtain ⟨r1, r2, h1, h2⟩ := matchImage_inv _ _ _ hmi
                  have hd1 := splitFirst_decomp _ _ _ _ h1
                  have hd2 := splitFirst_decomp _ _ _ _ h2
                  have ht1 : splitFirst (str "](")
                      (alt ++ (']' :: '(' :: (src ++ [')'])))
                      = some (alt, src ++ [')']) := by
                    have h1' : splitFirst [']', '(']
                        (alt ++ ']' :: '(' :: r1) = some (alt, r1) := by
                      have hx := h1
                      rw [hd1] at hx
                      exact hx
                    exact splitFirst_transfer_pair ']' '(' (by decide)
                      alt r1 (src ++ [')']) h1'
                  have ht2 : splitFirst (str ")") (src ++ str ")")
                      = some (src, []) := by
                    have h2' : splitFirst [')'] (src ++ ')' :: r2)
                        = some (src, r2) := by
                      have hx := h2
                      rw [hd2] at hx
                      exact hx
                    exact splitFirst_transfer_single ')' src r2 [] h2'
                  have hsf1 : splitFirst (str "](")
                      (((alt ++ str "](") ++ src) ++ str ")")
                      = some (alt, src ++ str ")") := by
                    rw [List.append_assoc, List.append_assoc]
                    exact ht1
                  have halt : ∀ c ∈ alt, c ∈ line := by
                    intro c hc
                    apply pstrip_subset line
                    have hcm : c ∈ (pstrip line).drop 2 := by
                      rw [hd1]
                      exact List.mem_append.mpr (Or.inl hc)
                    exact List.drop_subset 2 (pstrip line) hcm
                  have hsrc : ∀ c ∈ src, c ∈ line := by
                    intro c hc
                    apply pstrip_subset line
                    refine List.drop_subset 2 (pstrip line) ?_
                    rw [hd1]
                    refine List.mem_append.mpr (Or.inr ?_)
                    refine List.mem_append.mpr (Or.inr ?_)
                    rw [hd2]
                    exact List.mem_append.mpr (Or.inl hc)
                  have hnl : '\n' ∉ str "![" ++ alt ++ str "](" ++ src ++ str ")" := by
                    intro hmem
                    rcases List.mem_append.mp hmem with hm | hm
                    · rcases List.mem_append.mp hm with hm | hm
                      · rcases List.mem_append.mp hm with hm | hm
                        · rcases List.mem_append.mp hm with hm | hm
                          · exact absurd hm (by decide)
                          · exact hline (halt _ hm)
                        · exact absurd hm (by decide)
                      · exact hline (hsrc _ hm)
                    · exact absurd hm (by decide)
                  rw [parseBlocks_image line rest alt src hb hh hr hbl hq him hmi,
                    process_nodes_cons, serialize_para_shape]
                  rw [splitLines_append_newline _ _ hnl, splitLines_cons_newline]
                  rw [show str "![" ++ alt ++ str "](" ++ src ++ str ")"
                      = '!' :: '[' :: (((alt ++ str "](") ++ src) ++ str ")") from rfl]
                  rw [reparse_image alt src _ hsf1 ht2]
                  rw [parseBlocks_blank [] _ rfl]
                  rw [reparse_roundtrip rest hrest]
                  rfl
              · rw [parseBlocks_para line rest hb hh hr hbl hq him, process_nodes_cons,
                  serialize_para_shape]
                have hsub2 : ∀ l ∈ (takePara rest).2, '\n' ∉ l :=
                  fun l hl => hrest l (takePara_snd_mem rest l hl)
                have hT : '\n' ∉ joinSpace (line :: (takePara rest).1) := by
                  intro hmem
                  rcases mem_joinSpace _ _ hmem with hsp | ⟨l, hl, hcl⟩
                  · exact absurd hsp (by decide)
                  · rcases List.mem_cons.mp hl with h2 | h2
                    · exact hline (h2 ▸ hcl)
                    · exact hrest l (takePara_fst_mem rest l h2) hcl
                rw [splitLines_append_newline _ _ hT, splitLines_cons_newline]
                cases hfst : (takePara rest).1 with
                | nil =>
                  rw [joinSpace_single]
                  rw [reparse_para line _ hb hh hr hbl hq him]
                  rw [reparse_roundtrip (takePara rest).2 hsub2]
                | cons l2 ls =>
                  have hl2good : pstrip l2 ≠ [] :=
                    takePara_fst_good rest l2
                      (by rw [hfst]; exact List.mem_cons_self _ _)
                  have hZ : pstrip (joinSpace (l2 :: ls)) ≠ [] := by
                    cases ls with
                    | nil => rw [joinSpace_single]; exact hl2good
                    | cons l3 ls2 =>
                      rw [joinSpace_cons_cons]
                      exact pstrip_append_ne_nil l2 _ hl2good
                  obtain ⟨p0, p1, p2, p3, p4, p5⟩ :=
                    para_conditions line (joinSpace (l2 :: ls)) hb hh hr hbl hq him hZ
                  rw [joinSpace_cons_cons]
                  rw [reparse_para _ _ p0 p1 p2 p3 p4 p5]
                  rw [reparse_roundtrip (takePara rest).2 hsub2]
termination_by lines => lines.length
decreasing_by
  all_goals simp only [List.length_cons]
  all_goals first
    | omega
    | exact Nat.lt_succ_of_le (takePara_snd_length _)

/-- C1: the codec roundtrip.  Parsing the serialization of a parse yields
exactly the parse of the original text: for every Markdown text — in
particular any text composed of the recognized block kinds — `serialize ∘
parse` preserves the sequence of block kinds (headings with their level,
rules, bullet lines, quote lines, image lines, paragraphs) and their
textual content up to the whitespace normalization parsing performs (line
joining, blank-line placement, leading/trailing-space stripping), since
reparsing the serialized text reproduces the same node list. -/
theorem c1_roundtrip (content : PyStr) :
    markdown_to_prosemirror (process_nodes (markdown_to_prosemirror content))
      = markdown_to_prosemirror content := by
  unfold markdown_to_prosemirror
  exact reparse_roundtrip (splitLines content) (not_newline_mem_splitLines content)

/-- C1 witness: the roundtrip at a concrete document exercising a heading,
a rule, a bullet, a quote, an image line and a multi-line paragraph. -/
theorem c1_roundtrip_witness :
    markdown_to_prosemirror (process_nodes (markdown_to_prosemirror
      (str "# Title\n\n- item\n> quote\n---\n![alt](src)\npara one\npara two")))
      = markdown_to_prosemirror
        (str "# Title\n\n- item\n> quote\n---\n![alt](src)\npara one\npara two") :=
  c1_roundtrip (str "# Title\n\n- item\n> quote\n---\n![alt](src)\npara one\npara two")

end NotionKeeper
